import Mathlib

/-!
Verification of the discord-bot runtime (`src/server/services/discord-bot.ts`).

The development shallowly embeds the scheduler, the topology synchronizer,
the forwarder cache/matcher and the send helpers.  JavaScript `Date` values
are embedded as civil dates (year, 0-based month, day-of-month) together
with the minutes elapsed within the day; `Date.setDate` / `Date.setMonth`
renormalization (day overflow rolling into the following months, exactly as
the JS engine computes the timestamp from overflowed fields) is embedded by
`carryDay`.  `Date.getDay` is embedded through a days-from-civil conversion
(Gregorian, days counted from 1970-01-01, a Thursday).  All definitions are
executable, so concrete runs of the embedded code evaluate by `decide`.
-/

namespace DBot

/-- Gregorian leap-year test (agrees with JS `Date` UTC calendar). -/
def isLeap (y : Int) : Bool := y % 4 == 0 && (y % 100 != 0 || y % 400 == 0)

/-- Number of days of month `m` (0-based, JS style: 0 = January) of year `y`.
Months `≥ 12` never arise from the embedded operations; the catch-all arm
returns 31 so that the function is total. -/
def daysInMonth (y : Int) (m : Nat) : Nat :=
  if m = 1 then (if isLeap y then 29 else 28)
  else if m = 3 ∨ m = 5 ∨ m = 8 ∨ m = 10 then 30
  else 31

/-- The month after `(y, m)` (0-based month). -/
def nextMonth (y : Int) (m : Nat) : Int × Nat :=
  if m = 11 then (y + 1, 0) else (y, m + 1)

/-- Normalize a day-of-month that may exceed the month length by rolling the
excess into the following months — exactly what the JS engine does when a
`Date` is built from overflowed fields (e.g. Feb 31 becomes Mar 3).  `fuel`
bounds the recursion; callers pass the day itself, which always suffices. -/
def carryDay : Nat → Int → Nat → Nat → Int × Nat × Nat
  | 0, y, m, d => (y, m, d)
  | fuel + 1, y, m, d =>
    if d ≤ daysInMonth y m then (y, m, d)
    else
      let p := nextMonth y m
      carryDay fuel p.1 p.2 (d - daysInMonth y m)

/-- A JS `Date` (UTC), embedded at minute granularity: civil year, 0-based
month, day-of-month, and minutes within the day. -/
structure JDate where
  year : Int
  month : Nat
  day : Nat
  mins : Nat
deriving DecidableEq

/-- `Date.setDate(getDate() + k)`: add `k` days, renormalizing the civil
fields. -/
def addDaysCarry (dt : JDate) (k : Nat) : JDate :=
  let r := carryDay (dt.day + k) dt.year dt.month (dt.day + k)
  ⟨r.1, r.2.1, r.2.2, dt.mins⟩

/-- One calendar day later (the scheduler's `next.setDate(next.getDate()+1)`). -/
def addDays1 (dt : JDate) : JDate := addDaysCarry dt 1

/-- Days elapsed since 1970-01-01 for a civil date with 0-based month `mj`
(Howard Hinnant's civil-from-days inverse, as used by every JS engine's UTC
calendar).  The day field enters linearly, so overflowed day fields extend
naturally, matching JS renormalization. -/
def daysFromCivil (y : Int) (mj : Nat) (d : Nat) : Int :=
  let m : Int := (mj : Int) + 1
  let yAdj := if m ≤ 2 then y - 1 else y
  let era := (if 0 ≤ yAdj then yAdj else yAdj - 399) / 400
  let yoe := yAdj - era * 400
  let mp := (m + 9) % 12
  let doy := (153 * mp + 2) / 5 + (d : Int) - 1
  let doe := yoe * 365 + yoe / 4 - yoe / 100 + doy
  era * 146097 + doe - 719468

/-- `Date.getDay()`: weekday, 0 = Sunday.  1970-01-01 was a Thursday (4). -/
def weekday (dt : JDate) : Nat :=
  (Int.emod (daysFromCivil dt.year dt.month dt.day + 4) 7).toNat

/-- Absolute timestamp in minutes; JS `Date` comparisons compare timestamps. -/
def toAbs (dt : JDate) : Int :=
  daysFromCivil dt.year dt.month dt.day * 1440 + (dt.mins : Int)

/-- `next.setMonth(next.getMonth() + 1)`: step to the next month keeping the
day-of-month field, then renormalize (JS does not clamp; Jan 31 + 1 month is
Mar 3). -/
def jsAddMonth (dt : JDate) : JDate :=
  let p := nextMonth dt.year dt.month
  let r := carryDay dt.day p.1 p.2 dt.day
  ⟨r.1, r.2.1, r.2.2, dt.mins⟩

/-- The search loop of `findNextWorkingDay`: up to `fuel` candidate days
starting at `next`, returning the first whose weekday is in `wd`, and the
day after the window when none matches. -/
def findAux : Nat → JDate → List Nat → JDate
  | 0, next, _ => next
  | fuel + 1, next, wd =>
    if weekday next ∈ wd then next else findAux fuel (addDays1 next) wd

/-- `findNextWorkingDay(fromDate, workingDays)` from the source: start at the
day after `fromDate`, scan 7 days for a weekday contained in `workingDays`,
and return the current cursor (8 days after `fromDate`) when the scan fails. -/
def findNextWorkingDay (fromDate : JDate) (wd : List Nat) : JDate :=
  findAux 7 (addDays1 fromDate) wd

/-! ## Scheduler embedding

The Discord side is an oracle `DeliveryEnv`: for a platform channel id,
`client.channels.fetch` either rejects (`Except.error`), resolves to nothing,
or resolves to a channel object carrying whether it is send-capable
(`"send" in channel`), whether it is a thread, and the outcome of calling
`send` on it.  Persisted effects are reified as a list of operations. -/

/-- A fetched channel handle: send capability, thread-ness, and the outcome
`send` would produce on it. -/
structure ChanObj where
  canSend : Bool
  isThread : Bool
  sendResult : Except String Unit

/-- Outcome of `client.channels.fetch` per platform channel id. -/
def DeliveryEnv : Type := String → Except String (Option ChanObj)

/-- `repeatType` values of a notification row. -/
inductive RepeatType
  | once
  | daily
  | weekly
  | monthly
  | working_days
deriving DecidableEq

/-- A notification row joined with its channel, as consumed by the
scheduler (`NotificationWithRelations`); only the fields the scheduler
reads are carried. -/
structure Notification where
  id : Nat
  channelDiscordId : Option String
  message : String
  mentions : Bool
  scheduleDate : JDate
  repeatType : RepeatType
  endDate : Option JDate
  isActive : Bool
  nextScheduled : Option JDate
  lastSent : Option JDate
deriving DecidableEq

/-- A partial update handed to `storage.updateNotification`; `none` means the
field is absent from the patch. -/
structure Patch where
  lastSent : Option (Option JDate) := none
  nextScheduled : Option (Option JDate) := none
  isActive : Option Bool := none
deriving DecidableEq

/-- Persisted side effects of one scheduler tick: notification-log inserts
and notification updates. -/
inductive Op
  | logResult (notificationId : Nat) (status : String) (error : Option String)
  | update (notificationId : Nat) (patch : Patch)
deriving DecidableEq

/-- Whether a persisted operation is a notification update. -/
def Op.isUpdate : Op → Bool
  | Op.update _ _ => true
  | _ => false

/-- `calculateNextScheduledWithWorkingDays`: advance from
`max(nextScheduled ?? scheduleDate, now)` by the row's repeat type. -/
def baseOf (n : Notification) (now : JDate) : JDate :=
  let scheduled := n.nextScheduled.getD n.scheduleDate
  if toAbs now < toAbs scheduled then scheduled else now

/-- The recurrence computation of the source (`switch (repeatType)`). -/
def calculateNextScheduledWithWorkingDays (n : Notification) (wd : List Nat)
    (now : JDate) : Option JDate :=
  let current := baseOf n now
  match n.repeatType with
  | RepeatType.once => none
  | RepeatType.daily => some (addDaysCarry current 1)
  | RepeatType.weekly => some (addDaysCarry current 7)
  | RepeatType.monthly => some (jsAddMonth current)
  | RepeatType.working_days => some (findNextWorkingDay current wd)

/-- `logNotificationResult`: insert a log row, swallowing any repository
error (`try/catch` around `storage.createNotificationLog`).  `logOutcome` is
the repository's answer; on failure no row is persisted and no error
escapes. -/
def logNotificationResult (logOutcome : Except String Unit)
    (notificationId : Nat) (status : String) (error : Option String) :
    List Op :=
  match logOutcome with
  | Except.ok _ => [Op.logResult notificationId status error]
  | Except.error _ => []

/-- `sendNotificationWithWorkingDays`: resolve the channel, send, log the
outcome, then perform the recurrence update.  A missing channel join, an
inaccessible channel, or a send rejection produces a failed log and returns
without touching the row (the `catch` only logs). -/
def sendNotificationWithWorkingDays (logOutcome : Except String Unit)
    (env : DeliveryEnv) (now : JDate) (wd : List Nat) (n : Notification) :
    List Op :=
  match n.channelDiscordId with
  | none =>
    logNotificationResult logOutcome n.id "failed"
      (some "Channel not found in database")
  | some cid =>
    match env cid with
    | Except.error e => logNotificationResult logOutcome n.id "failed" (some e)
    | Except.ok none =>
      logNotificationResult logOutcome n.id "failed"
        (some "Channel not accessible")
    | Except.ok (some ch) =>
      if ch.canSend then
        match ch.sendResult with
        | Except.error e =>
          logNotificationResult logOutcome n.id "failed" (some e)
        | Except.ok _ =>
          let successLog := logNotificationResult logOutcome n.id "success" none
          let nextScheduled := calculateNextScheduledWithWorkingDays n wd now
          match nextScheduled with
          | some ns =>
            if (match n.endDate with
                | none => true
                | some e => decide (toAbs ns ≤ toAbs e)) then
              successLog ++
                [Op.update n.id
                  { lastSent := some (some now),
                    nextScheduled := some (some ns) }]
            else
              successLog ++
                [Op.update n.id
                  { lastSent := some (some now), nextScheduled := some none,
                    isActive := some false }]
          | none =>
            successLog ++
              [Op.update n.id
                { lastSent := some (some now), nextScheduled := some none,
                  isActive := some false }]
      else
        logNotificationResult logOutcome n.id "failed"
          (some "Channel not accessible")

/-- One scheduler tick over the due rows (`processNotifications`): a due
`working_days` row on a non-working day is rescheduled to the next working
day at the original clock time without sending; every other row goes through
`sendNotificationWithWorkingDays`. -/
def processNotifications (logOutcome : Except String Unit) (env : DeliveryEnv)
    (now : JDate) (wd : List Nat) : List Notification → List Op
  | [] => []
  | n :: rest =>
    (if n.repeatType = RepeatType.working_days ∧ ¬ weekday now ∈ wd then
      let nextScheduled := findNextWorkingDay now wd
      let nextWithTime : JDate :=
        { nextScheduled with mins := n.scheduleDate.mins }
      [Op.update n.id { nextScheduled := some (some nextWithTime) }]
    else
      sendNotificationWithWorkingDays logOutcome env now wd n) ++
    processNotifications logOutcome env now wd rest

/-- Apply a patch to a row (`storage.updateNotification` field semantics). -/
def applyPatch (n : Notification) (p : Patch) : Notification :=
  { n with
    lastSent := p.lastSent.getD n.lastSent,
    nextScheduled := p.nextScheduled.getD n.nextScheduled,
    isActive := p.isActive.getD n.isActive }

/-- Apply one persisted operation to the notification table. -/
def applyOp (store : List Notification) : Op → List Notification
  | Op.update nid p =>
    store.map fun n => if n.id = nid then applyPatch n p else n
  | Op.logResult _ _ _ => store

/-- Apply a tick's operations in order. -/
def applyOps (store : List Notification) : List Op → List Notification
  | [] => store
  | op :: rest => applyOps (applyOp store op) rest

/-- Invariant N1 of the spec: an active row has a next fire time. -/
def InvN1 (n : Notification) : Prop :=
  n.isActive = true → n.nextScheduled ≠ none

instance (n : Notification) : Decidable (InvN1 n) := by
  unfold InvN1; infer_instance

/-- The delivery-failure analysis of `sendNotificationWithWorkingDays`: the
failed-log message produced when delivery fails, `none` when the send
succeeds. -/
def deliveryFailure (n : Notification) (env : DeliveryEnv) : Option String :=
  match n.channelDiscordId with
  | none => some "Channel not found in database"
  | some cid =>
    match env cid with
    | Except.error e => some e
    | Except.ok none => some "Channel not accessible"
    | Except.ok (some ch) =>
      if ch.canSend then
        match ch.sendResult with
        | Except.error e => some e
        | Except.ok _ => none
      else some "Channel not accessible"

/-- `sendMessage(channelId, message)`: `false` when the bot is not ready,
when fetch rejects or resolves to nothing, when the channel cannot send, or
when `send` rejects; `true` after a completed send.  The `try/catch` is
embedded by matching on the oracle, so the function is total. -/
def sendMessage (isReady : Bool) (env : DeliveryEnv) (channelId : String) :
    Bool :=
  if !isReady then false
  else
    match env channelId with
    | Except.error _ => false
    | Except.ok none => false
    | Except.ok (some ch) =>
      if ch.canSend then
        match ch.sendResult with
        | Except.ok _ => true
        | Except.error _ => false
      else false

/-! ## Keyword matcher embedding

Message bodies and keywords are JS strings, embedded as `List Char`.  The
`exact` branch of `handleMessageForwarding` normalizes both sides with
`.replace(/[^\w\s]/g, " ").replace(/\s+/g, " ").trim()`, splits on `" "`,
and scans for the keyword token array inside the message token array with a
double loop over indices. -/

/-- JS `\w`: ASCII letters, digits and underscore. -/
def isWordChar (c : Char) : Bool := c.isAlphanum || c = '_'

/-- JS `\s` restricted to ASCII whitespace (the only whitespace arising
here). -/
def isSpaceChar (c : Char) : Bool :=
  c = ' ' || c = '\t' || c = '\n' || c = '\r' || c = '\x0b' || c = '\x0c'

/-- `toLowerCase` (ASCII). -/
def jsToLower (s : List Char) : List Char := s.map Char.toLower

/-- `.replace(/[^\w\s]/g, " ")`: every character that is neither a word
character nor whitespace becomes a space. -/
def replaceNonWord (s : List Char) : List Char :=
  s.map fun c => if !isWordChar c && !isSpaceChar c then ' ' else c

/-- `.replace(/\s+/g, " ")`: each maximal run of whitespace becomes one
space. -/
def collapseWs : List Char → List Char
  | [] => []
  | [c] => if isSpaceChar c then [' '] else [c]
  | c1 :: c2 :: rest =>
    if isSpaceChar c1 && isSpaceChar c2 then collapseWs (c2 :: rest)
    else (if isSpaceChar c1 then ' ' else c1) :: collapseWs (c2 :: rest)

/-- `.trim()`: strip leading and trailing whitespace. -/
def jsTrim (s : List Char) : List Char :=
  ((s.dropWhile isSpaceChar).reverse.dropWhile isSpaceChar).reverse

/-- `.split(" ")`: split at every space character, keeping empty pieces; the
split of the empty string is `[""]`, as in JS. -/
def splitSpace : List Char → List (List Char)
  | [] => [[]]
  | c :: rest =>
    match splitSpace rest with
    | [] => [[c]]
    | t :: ts => if c = ' ' then [] :: t :: ts else (c :: t) :: ts

/-- The token array of an already-lowercased string: normalize punctuation,
collapse whitespace, trim, split on spaces. -/
def normalizeTokens (s : List Char) : List (List Char) :=
  splitSpace (jsTrim (collapseWs (replaceNonWord s)))

/-- The index double loop of the `exact` branch: some start position `i`
(`0 ≤ i ≤ messageTokens.length - keywordTokens.length`) at which every
keyword token equals the message token `i + j`. -/
def exactMatchCode (messageTokens keywordTokens : List (List Char)) : Bool :=
  (List.range (messageTokens.length + 1 - keywordTokens.length)).any fun i =>
    (List.range keywordTokens.length).all fun j =>
      decide (messageTokens.getD (i + j) [] = keywordTokens.getD j [])

/-- Message tokens: the message content is lowercased once
(`message.content.toLowerCase()`) and then normalized. -/
def messageTokens (content : List Char) : List (List Char) :=
  normalizeTokens (jsToLower content)

/-- Keyword tokens: `keyword.toLowerCase().trim()` and then the same
normalization. -/
def keywordTokens (keyword : List Char) : List (List Char) :=
  normalizeTokens (jsTrim (jsToLower keyword))

/-- The `exact` match predicate of `handleMessageForwarding` for one keyword
against one message body. -/
def exactKeywordMatch (keyword content : List Char) : Bool :=
  exactMatchCode (messageTokens content) (keywordTokens keyword)

/-- The `contains` match predicate: the lowercased, trimmed keyword occurs
as a substring of the lowercased message (`String.prototype.includes`). -/
def containsKeywordMatch (keyword content : List Char) : Bool :=
  decide (jsTrim (jsToLower keyword) <:+: jsToLower content)

/-! ## Forwarder cache and forwarding loop

`forwarderCache` is a `Map<string, ForwarderWithRelations[]>`; it is
embedded as an association list with first-key lookup and in-place
replacement, which matches `Map.get`/`Map.set` observationally. -/

/-- `contains`/`exact` selector of a forwarder. -/
inductive MatchType
  | contains
  | exact
deriving DecidableEq

/-- An active forwarder row joined with its channels
(`ForwarderWithRelations`); only the fields the bot reads are carried. -/
structure Forwarder where
  id : Nat
  sourceChannelDiscordId : Option String
  sourceThreadId : Option String
  destinationChannelDiscordId : Option String
  destinationThreadId : Option String
  keywords : List (List Char)
  matchType : MatchType
deriving DecidableEq

/-- The in-memory forwarder cache. -/
def Cache : Type := List (String × List Forwarder)

/-- `Map.get`. -/
def cacheGet (c : Cache) (k : String) : Option (List Forwarder) :=
  (c.find? fun e => e.1 = k).map fun e => e.2

/-- `Map.get(k) ?? []` as used by the lookups. -/
def cacheGetD (c : Cache) (k : String) : List Forwarder :=
  (cacheGet c k).getD []

/-- `Map.set`. -/
def cacheSet : Cache → String → List Forwarder → Cache
  | [], k, v => [(k, v)]
  | e :: rest, k, v =>
    if e.1 = k then (k, v) :: rest else e :: cacheSet rest k v

/-- The cache key a forwarder is stored under, given its source channel's
discord id: `thread:{sourceThreadId}` when a thread is set, else
`channel:{discordId}`. -/
def keyOf (f : Forwarder) (cid : String) : String :=
  match f.sourceThreadId with
  | some tid => "thread:" ++ tid
  | none => "channel:" ++ cid

/-- The body of the `loadForwarders` loop for one forwarder: skip rows whose
source-channel join carries no discord id; push the row under its key; for
non-thread rows additionally ensure the channel key exists (a no-op, since
that key was just written). -/
def loadStep (c : Cache) (f : Forwarder) : Cache :=
  match f.sourceChannelDiscordId with
  | none => c
  | some cid =>
    let key := keyOf f cid
    let c1 := cacheSet c key (cacheGetD c key ++ [f])
    match f.sourceThreadId with
    | some _ => c1
    | none =>
      let channelKey := "channel:" ++ cid
      match cacheGet c1 channelKey with
      | some _ => c1
      | none => cacheSet c1 channelKey []

/-- The `loadForwarders` loop over the active forwarders. -/
def loadAux : Cache → List Forwarder → Cache
  | c, [] => c
  | c, f :: rest => loadAux (loadStep c f) rest

/-- `loadForwarders`: clear the cache, then insert every active forwarder. -/
def loadForwarders (active : List Forwarder) : Cache := loadAux [] active

/-- Observable effects of the forwarding loop: platform sends and forwarder
log rows. -/
inductive FOp
  | send (target : String) (content : List Char)
  | flog (forwarderId : Nat) (matched : Option (List Char)) (status : String)
      (error : Option String)
deriving DecidableEq

/-- Whether a forwarding effect is a platform send. -/
def FOp.isSend : FOp → Bool
  | FOp.send _ _ => true
  | _ => false

/-- `logForwarderResult`: insert a forwarder log row, swallowing repository
errors exactly like `logNotificationResult`. -/
def logForwarderResult (logOutcome : Except String Unit) (forwarderId : Nat)
    (matched : Option (List Char)) (status : String) (error : Option String) :
    List FOp :=
  match logOutcome with
  | Except.ok _ => [FOp.flog forwarderId matched status error]
  | Except.error _ => []

/-- The keyword search of the loop: first keyword (in stored order) that
matches under the forwarder's match type. -/
def findMatchedKeyword (f : Forwarder) (content : List Char) :
    Option (List Char) :=
  f.keywords.find? fun kw =>
    match f.matchType with
    | MatchType.exact => exactKeywordMatch kw content
    | MatchType.contains => containsKeywordMatch kw content

/-- The literal body of a forwarded message. -/
def forwardedContent (content : List Char) : List Char :=
  ("**Forwarded Message**\n-----\n").toList ++ content

/-- `forwardMessage`: resolve the destination (thread id when set, else the
destination channel), send the forwarded body, and return the send target;
every failure is thrown to the caller (`Except.error`). -/
def forwardMessage (env : DeliveryEnv) (f : Forwarder) : Except String String :=
  match f.destinationThreadId with
  | some tid =>
    match env tid with
    | Except.error e => Except.error e
    | Except.ok none =>
      Except.error "Destination thread not found or not a thread"
    | Except.ok (some ch) =>
      if ch.isThread then
        match ch.sendResult with
        | Except.error e => Except.error e
        | Except.ok _ => Except.ok tid
      else Except.error "Destination thread not found or not a thread"
  | none =>
    match f.destinationChannelDiscordId with
    | none => Except.error "Destination channel not found"
    | some cid =>
      match env cid with
      | Except.error e => Except.error e
      | Except.ok none => Except.error "Destination channel not accessible"
      | Except.ok (some ch) =>
        if ch.canSend then
          match ch.sendResult with
          | Except.error e => Except.error e
          | Except.ok _ => Except.ok cid
        else Except.error "Destination channel not accessible"

/-- The rule loop of `handleMessageForwarding` over the candidate
forwarders: skip non-matching rules; forward matching ones, logging success
with the matched keyword; the `catch` turns any forwarding error into a
failed log row and continues with the next rule. -/
def runForwarders (logOutcome : Except String Unit) (env : DeliveryEnv)
    (content : List Char) : List Forwarder → List FOp
  | [] => []
  | f :: rest =>
    (match findMatchedKeyword f content with
    | none => []
    | some kw =>
      match forwardMessage env f with
      | Except.ok target =>
        FOp.send target (forwardedContent content) ::
          logForwarderResult logOutcome f.id (some kw) "success" none
      | Except.error e =>
        logForwarderResult logOutcome f.id none "failed" (some e)) ++
    runForwarders logOutcome env content rest

/-! ## Topology synchronizer embedding

`syncServer` upserts the `Server` row keyed by discord id and then
`syncChannels` mirrors the guild's text-like channels: upsert each by
discord id, then delete the server's local channels whose discord id was not
seen.  The repository is a store of rows with integer primary keys; creates
draw fresh ids from a counter.  Writes are reified as `SyncOp`s. -/

/-- Discord channel kinds as far as the synchronizer distinguishes them. -/
inductive DChanType
  | guildText
  | guildAnnouncement
  | other
deriving DecidableEq

/-- A live guild channel as returned by `guild.channels.fetch()`. -/
structure GuildChannel where
  id : String
  name : String
  ctype : DChanType
deriving DecidableEq

/-- A fetched guild (`guild.fetch()`). -/
structure Guild where
  id : String
  name : String
  icon : Option String
  memberCount : Nat
  channels : List GuildChannel
deriving DecidableEq

/-- A stored `Server` row. -/
structure ServerRow where
  id : Nat
  discordId : String
  name : String
  icon : Option String
  memberCount : Nat
  isConnected : Bool
deriving DecidableEq

/-- A stored `Channel` row. -/
structure ChannelRow where
  id : Nat
  discordId : String
  serverId : Nat
  name : String
  ctype : String
deriving DecidableEq

/-- The repository state touched by the synchronizer. -/
structure Store where
  servers : List ServerRow
  channels : List ChannelRow
  nextId : Nat
deriving DecidableEq

/-- Writes performed by a sync run. -/
inductive SyncOp
  | createdServer (id : Nat)
  | updatedServer (id : Nat) (name : String) (icon : Option String)
      (memberCount : Nat)
  | createdChannel (id : Nat) (discordId : String)
  | updatedChannel (id : Nat) (name : String) (ctype : String)
  | deletedChannel (id : Nat)
deriving DecidableEq

/-- `storage.getServerByDiscordId`. -/
def getServerByDiscordId (st : Store) (did : String) : Option ServerRow :=
  st.servers.find? fun s => s.discordId = did

/-- `storage.updateServer` with the fields `syncServer` writes. -/
def updateServerRow (st : Store) (sid : Nat) (name : String)
    (icon : Option String) (mc : Nat) : Store :=
  { st with
    servers := st.servers.map fun s =>
      if s.id = sid then
        { s with
          name := name
          icon := icon
          memberCount := mc
          isConnected := true }
      else s }

/-- `storage.createServer` (`isConnected := true`), returning the fresh id. -/
def createServerRow (st : Store) (did : String) (name : String)
    (icon : Option String) (mc : Nat) : Store × Nat :=
  ({ st with
      servers := st.servers ++ [⟨st.nextId, did, name, icon, mc, true⟩],
      nextId := st.nextId + 1 },
    st.nextId)

/-- `storage.getChannelsByServer`. -/
def getChannelsByServer (st : Store) (sid : Nat) : List ChannelRow :=
  st.channels.filter fun c => c.serverId = sid

/-- `storage.getChannelByDiscordId`. -/
def getChannelByDiscordId (st : Store) (did : String) : Option ChannelRow :=
  st.channels.find? fun c => c.discordId = did

/-- `storage.updateChannel` with the fields `syncChannels` writes. -/
def updateChannelRow (st : Store) (cid : Nat) (name : String) (ty : String) :
    Store :=
  { st with
    channels := st.channels.map fun c =>
      if c.id = cid then { c with name := name, ctype := ty } else c }

/-- `storage.createChannel`. -/
def createChannelRow (st : Store) (did : String) (sid : Nat) (name : String)
    (ty : String) : Store :=
  { st with
    channels := st.channels ++ [⟨st.nextId, did, sid, name, ty⟩],
    nextId := st.nextId + 1 }

/-- `storage.deleteChannel`. -/
def deleteChannelRow (st : Store) (cid : Nat) : Store :=
  { st with channels := st.channels.filter fun c => ¬ c.id = cid }

/-- Whether the synchronizer mirrors a channel of this kind. -/
def isTextLike (t : DChanType) : Bool :=
  t = DChanType.guildText || t = DChanType.guildAnnouncement

/-- The stored `type` string of a mirrored channel. -/
def typeStr (t : DChanType) : String :=
  if t = DChanType.guildAnnouncement then "announcement" else "text"

/-- The upsert loop of `syncChannels`: mirror each text-like channel,
collecting the synced discord ids. -/
def upsertChannels (sid : Nat) : Store → List GuildChannel →
    Store × List String × List SyncOp
  | st, [] => (st, [], [])
  | st, ch :: rest =>
    if isTextLike ch.ctype then
      match getChannelByDiscordId st ch.id with
      | some ex =>
        let st1 := updateChannelRow st ex.id ch.name (typeStr ch.ctype)
        let r := upsertChannels sid st1 rest
        (r.1, ch.id :: r.2.1,
          SyncOp.updatedChannel ex.id ch.name (typeStr ch.ctype) :: r.2.2)
      | none =>
        let newId := st.nextId
        let st1 := createChannelRow st ch.id sid ch.name (typeStr ch.ctype)
        let r := upsertChannels sid st1 rest
        (r.1, ch.id :: r.2.1, SyncOp.createdChannel newId ch.id :: r.2.2)
    else upsertChannels sid st rest

/-- The deletion pass of `syncChannels` over the channels that existed
before the upsert loop: delete rows whose discord id was not synced. -/
def deleteMissing (syncedIds : List String) : Store → List ChannelRow →
    Store × List SyncOp
  | st, [] => (st, [])
  | st, ex :: rest =>
    if ex.discordId ∈ syncedIds then deleteMissing syncedIds st rest
    else
      let r := deleteMissing syncedIds (deleteChannelRow st ex.id) rest
      (r.1, SyncOp.deletedChannel ex.id :: r.2)

/-- `syncChannels(guild, serverId)`. -/
def syncChannels (g : Guild) (sid : Nat) (st : Store) : Store × List SyncOp :=
  let existing := getChannelsByServer st sid
  let u := upsertChannels sid st g.channels
  let d := deleteMissing u.2.1 u.1 existing
  (d.1, u.2.2 ++ d.2)

/-- `syncServer(guild)`: upsert the server row by discord id, then sync its
channels. -/
def syncServer (g : Guild) (st : Store) : Store × List SyncOp :=
  match getServerByDiscordId st g.id with
  | some s =>
    let st1 := updateServerRow st s.id g.name g.icon g.memberCount
    let r := syncChannels g s.id st1
    (r.1, SyncOp.updatedServer s.id g.name g.icon g.memberCount :: r.2)
  | none =>
    let c := createServerRow st g.id g.name g.icon g.memberCount
    let r := syncChannels g c.2 c.1
    (r.1, SyncOp.createdServer c.2 :: r.2)

/-- The discord ids of the guild's text-like channels — the set the local
mirror should converge to. -/
def textIds (g : Guild) : List String :=
  (g.channels.filter fun ch => isTextLike ch.ctype).map fun ch => ch.id

/-! ## Derived notions used by the statements -/

/-- The notification updates among a tick's persisted operations. -/
def updateOps (ops : List Op) : List Op := ops.filter Op.isUpdate

/-- The platform sends among a forwarding run's effects. -/
def sendOps (ops : List FOp) : List FOp := ops.filter FOp.isSend

/-- A patch that maintains invariant N1 on any row: it either installs a
concrete next fire time or deactivates the row while clearing it. -/
def GoodPatch (p : Patch) : Prop :=
  (∃ v, p.nextScheduled = some (some v)) ∨
    (p.isActive = some false ∧ p.nextScheduled = some none)

/-- The list the cache stores under key `k` (`cache.get(k) ?? []`). -/
def cacheList (c : Cache) (k : String) : List Forwarder := cacheGetD c k

/-- A forwarder belongs at key `k`: its source-channel join carries a
discord id and `k` is the one key `loadForwarders` files it under. -/
def KeyedAt (f : Forwarder) (k : String) : Prop :=
  ∃ cid, f.sourceChannelDiscordId = some cid ∧ k = keyOf f cid

/-- The server id `syncServer` works with: the id of the existing row for
the guild, or the fresh id a create would allocate. -/
def resolvedServerId (st : Store) (g : Guild) : Nat :=
  match getServerByDiscordId st g.id with
  | some s => s.id
  | none => st.nextId

/-- Store channel ids for one server: the discord ids of its rows. -/
def serverChannelIds (st : Store) (sid : Nat) : List String :=
  (getChannelsByServer st sid).map fun c => c.discordId

/-- A write that merely refreshes an existing row with the values it already
has. -/
def IsRefreshOp (st : Store) : SyncOp → Prop
  | SyncOp.updatedServer i name icon mc =>
    ∃ s ∈ st.servers, s.id = i ∧ s.name = name ∧ s.icon = icon ∧
      s.memberCount = mc ∧ s.isConnected = true
  | SyncOp.updatedChannel i name ty =>
    ∃ c ∈ st.channels, c.id = i ∧ c.name = name ∧ c.ctype = ty
  | _ => False

/-- The synced discord ids collected by the upsert loop over a channel
list. -/
def chIds (chs : List GuildChannel) : List String :=
  (chs.filter fun ch => isTextLike ch.ctype).map fun ch => ch.id

/-- The server row for the guild is present and mirrors the guild's
fields. -/
def ServerSynced (g : Guild) (sid : Nat) (st : Store) : Prop :=
  ∃ s, getServerByDiscordId st g.id = some s ∧ s.id = sid ∧ s.name = g.name ∧
    s.icon = g.icon ∧ s.memberCount = g.memberCount ∧ s.isConnected = true

/-- The channel table mirrors the guild: every text-like guild channel is
stored under the server with its current name and kind, and every row of
the server is one of the guild's text-like channels. -/
def ChannelsSynced (g : Guild) (sid : Nat) (st : Store) : Prop :=
  (∀ ch ∈ g.channels, isTextLike ch.ctype = true →
    ∃ r, getChannelByDiscordId st ch.id = some r ∧ r.serverId = sid ∧
      r.name = ch.name ∧ r.ctype = typeStr ch.ctype) ∧
  (∀ r ∈ st.channels, r.serverId = sid → r.discordId ∈ textIds g)

/-- Whether the deletion pass keeps a channel row: no pre-existing row with
an unsynced discord id shares its primary key. -/
def keepRow (synced : List String) (rows : List ChannelRow)
    (c : ChannelRow) : Bool :=
  rows.all fun r => r.discordId ∈ synced || ¬ c.id = r.id

/-- Primary-key well-formedness of the store: row ids are unique and below
the fresh-id counter. -/
def WellFormed (st : Store) : Prop :=
  (st.channels.map ChannelRow.id).Nodup ∧
  (∀ r ∈ st.channels, r.id < st.nextId) ∧
  (st.servers.map ServerRow.id).Nodup ∧
  (∀ s ∈ st.servers, s.id < st.nextId)

/-! ## Theorems -/

/-- Mapping a function that fixes every element of a list is the
identity. -/
theorem map_eq_self_of {α : Type} (l : List α) (f : α → α)
    (h : ∀ x ∈ l, f x = x) : l.map f = l := by
  induction l with
  | nil => rfl
  | cons a t ih =>
    rw [List.map_cons, h a (List.mem_cons_self a t),
      ih fun x hx => h x (List.mem_cons_of_mem a hx)]

/-- The first match of `find?` survives a `filter` that keeps it. -/
theorem find?_filter_first {α : Type} (p q : α → Bool) :
    ∀ (l : List α) (a : α), l.find? p = some a → q a = true →
      (l.filter q).find? p = some a := by
  intro l
  induction l with
  | nil =>
    intro a h _
    exact absurd h (by simp)
  | cons x t ih =>
    intro a h hq
    by_cases hx : p x = true
    · rw [List.find?_cons_of_pos t hx] at h
      injection h with h
      subst h
      rw [List.filter_cons_of_pos hq, List.find?_cons_of_pos _ hx]
    · rw [List.find?_cons_of_neg t (by simpa using hx)] at h
      by_cases hqx : q x = true
      · rw [List.filter_cons_of_pos hqx,
          List.find?_cons_of_neg _ (by simpa using hx)]
        exact ih a h hq
      · rw [List.filter_cons_of_neg (by simpa using hqx)]
        exact ih a h hq

/-- `logNotificationResult` only ever emits log operations. -/
theorem logNotificationResult_no_update (lo : Except String Unit) (i : Nat)
    (s : String) (er : Option String) (nid : Nat) (p : Patch) :
    Op.update nid p ∉ logNotificationResult lo i s er := by
  cases lo <;> simp [logNotificationResult]

/-- C10: `sendMessage` returns `true` exactly when the bot is ready, the
fetch resolves to a send-capable channel, and the send completes; in every
other situation — bot not ready, fetch rejected, channel absent or not
send-capable, send rejected — it returns `false` instead of throwing. -/
theorem sendMessage_true_iff (isReady : Bool) (env : DeliveryEnv)
    (cid : String) :
    sendMessage isReady env cid = true ↔
      (isReady = true ∧ ∃ ch, env cid = Except.ok (some ch) ∧
        ch.canSend = true ∧ ch.sendResult = Except.ok ()) := by
  unfold sendMessage
  cases isReady with
  | false => simp
  | true =>
    simp only [Bool.not_true, Bool.false_eq_true, if_false, true_and]
    cases h : env cid with
    | error e => simp
    | ok o =>
      cases o with
      | none => simp
      | some ch =>
        cases hc : ch.canSend with
        | false => simp [hc]
        | true =>
          cases hs : ch.sendResult with
          | error e => simp [hc, hs]
          | ok u => cases u; simp [hc, hs]

/-- C1 (amended): when delivery of a due notification fails — channel join
missing, channel not fetchable or not send-capable, or the send rejects —
the scheduler persists exactly one failed log row and performs no
recurrence update at all: the notification row is not written. -/
theorem sendNotification_failure_no_recurrence
    (n : Notification) (env : DeliveryEnv) (now : JDate) (wd : List Nat)
    (e : String) (h : deliveryFailure n env = some e) :
    sendNotificationWithWorkingDays (Except.ok ()) env now wd n =
      [Op.logResult n.id "failed" (some e)] := by
  unfold deliveryFailure at h
  unfold sendNotificationWithWorkingDays
  cases hcd : n.channelDiscordId with
  | none =>
    simp only [hcd, Option.some.injEq] at h ⊢
    subst h
    rfl
  | some cid =>
    simp only [hcd] at h ⊢
    cases henv : env cid with
    | error e' =>
      simp only [henv, Option.some.injEq] at h ⊢
      subst h
      rfl
    | ok o =>
      simp only [henv] at h ⊢
      cases o with
      | none =>
        simp only [Option.some.injEq] at h
        subst h
        rfl
      | some ch =>
        cases hc : ch.canSend with
        | false =>
          simp only [hc, Bool.false_eq_true, if_false, Option.some.injEq]
            at h ⊢
          subst h
          rfl
        | true =>
          simp only [hc, if_true] at h ⊢
          cases hs : ch.sendResult with
          | error e' =>
            simp only [hs, Option.some.injEq] at h ⊢
            subst h
            rfl
          | ok u =>
            simp only [hs] at h
            exact Option.noConfusion h

/-- C1 witness: a concrete `once` row whose send rejects produces the failed
log and nothing else. -/
theorem sendNotification_failure_no_recurrence_witness :
    deliveryFailure
        ⟨1, some "c1", "hi", false, ⟨2025, 0, 1, 540⟩, RepeatType.once, none,
          true, some ⟨2025, 0, 1, 540⟩, none⟩
        (fun _ => Except.ok (some ⟨true, false, Except.error "boom"⟩)) =
      some "boom" ∧
    sendNotificationWithWorkingDays (Except.ok ())
        (fun _ => Except.ok (some ⟨true, false, Except.error "boom"⟩))
        ⟨2025, 0, 1, 541⟩ [1, 2, 3, 4, 5]
        ⟨1, some "c1", "hi", false, ⟨2025, 0, 1, 540⟩, RepeatType.once, none,
          true, some ⟨2025, 0, 1, 540⟩, none⟩ =
      [Op.logResult 1 "failed" (some "boom")] :=
  ⟨by decide,
    sendNotification_failure_no_recurrence _ _ _ _ "boom" (by decide)⟩

/-- C1 counterexample: for the same failing `once` row the persisted
operations are the failed log alone — no update, hence no deactivation, is
performed, contradicting the claimed recurrence update on failure. -/
theorem sendNotification_failure_counterexample :
    sendNotificationWithWorkingDays (Except.ok ())
        (fun _ => Except.ok (some ⟨true, false, Except.error "boom"⟩))
        ⟨2025, 0, 1, 541⟩ [1, 2, 3, 4, 5]
        ⟨1, some "c1", "hi", false, ⟨2025, 0, 1, 540⟩, RepeatType.once, none,
          true, some ⟨2025, 0, 1, 540⟩, none⟩ =
      [Op.logResult 1 "failed" (some "boom")] ∧
    (sendNotificationWithWorkingDays (Except.ok ())
        (fun _ => Except.ok (some ⟨true, false, Except.error "boom"⟩))
        ⟨2025, 0, 1, 541⟩ [1, 2, 3, 4, 5]
        ⟨1, some "c1", "hi", false, ⟨2025, 0, 1, 540⟩, RepeatType.once, none,
          true, some ⟨2025, 0, 1, 540⟩, none⟩).all
      (fun op => !Op.isUpdate op) = true := by
  constructor <;> decide

/-- Every notification update emitted by `sendNotificationWithWorkingDays`
carries a patch that installs a next fire time or deactivates the row. -/
theorem sendNotification_update_good (lo : Except String Unit)
    (env : DeliveryEnv) (now : JDate) (wd : List Nat) (n : Notification)
    (nid : Nat) (p : Patch)
    (hmem : Op.update nid p ∈ sendNotificationWithWorkingDays lo env now wd n) :
    GoodPatch p := by
  unfold sendNotificationWithWorkingDays at hmem
  cases hcd : n.channelDiscordId with
  | none =>
    simp only [hcd] at hmem
    exact absurd hmem (logNotificationResult_no_update _ _ _ _ _ _)
  | some cid =>
    simp only [hcd] at hmem
    cases henv : env cid with
    | error e =>
      simp only [henv] at hmem
      exact absurd hmem (logNotificationResult_no_update _ _ _ _ _ _)
    | ok o =>
      cases o with
      | none =>
        simp only [henv] at hmem
        exact absurd hmem (logNotificationResult_no_update _ _ _ _ _ _)
      | some ch =>
        simp only [henv] at hmem
        cases hc : ch.canSend with
        | false =>
          simp only [hc, Bool.false_eq_true, if_false] at hmem
          exact absurd hmem (logNotificationResult_no_update _ _ _ _ _ _)
        | true =>
          simp only [hc, if_true] at hmem
          cases hs : ch.sendResult with
          | error e =>
            simp only [hs] at hmem
            exact absurd hmem (logNotificationResult_no_update _ _ _ _ _ _)
          | ok u =>
            simp only [hs] at hmem
            cases hcn : calculateNextScheduledWithWorkingDays n wd now with
            | none =>
              simp only [hcn] at hmem
              rcases List.mem_append.1 hmem with h' | h'
              · exact absurd h' (logNotificationResult_no_update _ _ _ _ _ _)
              · rcases List.mem_singleton.1 h' with h''
                injection h'' with _ hp
                subst hp
                exact Or.inr ⟨rfl, rfl⟩
            | some ns =>
              simp only [hcn] at hmem
              split at hmem
              · rcases List.mem_append.1 hmem with h' | h'
                · exact absurd h' (logNotificationResult_no_update _ _ _ _ _ _)
                · rcases List.mem_singleton.1 h' with h''
                  injection h'' with _ hp
                  subst hp
                  exact Or.inl ⟨ns, rfl⟩
              · rcases List.mem_append.1 hmem with h' | h'
                · exact absurd h' (logNotificationResult_no_update _ _ _ _ _ _)
                · rcases List.mem_singleton.1 h' with h''
                  injection h'' with _ hp
                  subst hp
                  exact Or.inr ⟨rfl, rfl⟩

/-- Every notification update emitted by a scheduler tick carries a patch
that installs a next fire time or deactivates the row. -/
theorem processNotifications_update_good (lo : Except String Unit)
    (env : DeliveryEnv) (now : JDate) (wd : List Nat) :
    ∀ (due : List Notification) (nid : Nat) (p : Patch),
      Op.update nid p ∈ processNotifications lo env now wd due →
        GoodPatch p := by
  intro due
  induction due with
  | nil => intro nid p h; exact absurd h (List.not_mem_nil _)
  | cons n rest ih =>
    intro nid p hmem
    unfold processNotifications at hmem
    rcases List.mem_append.1 hmem with h' | h'
    · split at h'
      · rcases List.mem_singleton.1 h' with h''
        injection h'' with _ hp
        subst hp
        exact Or.inl ⟨_, rfl⟩
      · exact sendNotification_update_good lo env now wd n nid p h'
    · exact ih nid p h'

/-- A good patch leaves any row satisfying invariant N1. -/
theorem applyPatch_invN1 (n : Notification) (p : Patch) (hg : GoodPatch p) :
    InvN1 (applyPatch n p) := by
  rcases hg with ⟨v, hv⟩ | ⟨ha, hv⟩
  · intro _
    simp [applyPatch, hv]
  · intro hact
    simp [applyPatch, ha] at hact

/-- Applying one emitted operation preserves invariant N1 across the
table. -/
theorem applyOp_invN1 (store : List Notification) (op : Op)
    (hst : ∀ n ∈ store, InvN1 n)
    (hop : ∀ nid p, op = Op.update nid p → GoodPatch p) :
    ∀ n ∈ applyOp store op, InvN1 n := by
  cases op with
  | logResult i s e => exact hst
  | update nid p =>
    intro n hn
    simp only [applyOp, List.mem_map] at hn
    obtain ⟨m, hm, rfl⟩ := hn
    by_cases hid : m.id = nid
    · simp only [hid, if_true]
      exact applyPatch_invN1 m p (hop nid p rfl)
    · simp only [hid, if_false]
      exact hst m hm

/-- Applying a list of operations whose updates are all good preserves
invariant N1. -/
theorem applyOps_invN1 :
    ∀ (ops : List Op) (store : List Notification),
      (∀ n ∈ store, InvN1 n) →
      (∀ nid p, Op.update nid p ∈ ops → GoodPatch p) →
      ∀ n ∈ applyOps store ops, InvN1 n := by
  intro ops
  induction ops with
  | nil => intro store hst _; exact hst
  | cons op rest ih =>
    intro store hst hops
    refine ih (applyOp store op) ?_ ?_
    · exact applyOp_invN1 store op hst fun nid p h =>
        hops nid p (h ▸ List.mem_cons_self op rest)
    · intro nid p h
      exact hops nid p (List.mem_cons_of_mem op h)

/-- C2: a scheduler tick preserves invariant N1 — starting from a table
whose rows all satisfy `isActive → nextScheduled ≠ null`, applying every
operation the tick persists (reschedules, recurrence advances,
deactivations; rows it does not write are untouched) leaves every row
satisfying the invariant. -/
theorem processNotifications_preserves_N1 (lo : Except String Unit)
    (env : DeliveryEnv) (now : JDate) (wd : List Nat)
    (due : List Notification) (store : List Notification)
    (h : ∀ n ∈ store, InvN1 n) :
    ∀ n ∈ applyOps store (processNotifications lo env now wd due), InvN1 n :=
  applyOps_invN1 (processNotifications lo env now wd due) store h
    (processNotifications_update_good lo env now wd due)

/-- C2 witness: a concrete tick over a two-row table — a `once` row that
fires and deactivates and a `daily` row that advances — keeps N1. -/
theorem processNotifications_preserves_N1_witness :
    (∀ n ∈
      [(⟨1, some "c1", "hi", false, ⟨2025, 0, 1, 540⟩, RepeatType.once, none,
          true, some ⟨2025, 0, 1, 540⟩, none⟩ : Notification),
        ⟨2, some "c1", "yo", false, ⟨2025, 0, 1, 500⟩, RepeatType.daily, none,
          true, some ⟨2025, 0, 1, 500⟩, none⟩], InvN1 n) ∧
    (∀ n ∈ applyOps
      [(⟨1, some "c1", "hi", false, ⟨2025, 0, 1, 540⟩, RepeatType.once, none,
          true, some ⟨2025, 0, 1, 540⟩, none⟩ : Notification),
        ⟨2, some "c1", "yo", false, ⟨2025, 0, 1, 500⟩, RepeatType.daily, none,
          true, some ⟨2025, 0, 1, 500⟩, none⟩]
      (processNotifications (Except.ok ())
        (fun _ => Except.ok (some ⟨true, false, Except.ok ()⟩))
        ⟨2025, 0, 1, 541⟩ [1, 2, 3, 4, 5]
        [⟨1, some "c1", "hi", false, ⟨2025, 0, 1, 540⟩, RepeatType.once, none,
            true, some ⟨2025, 0, 1, 540⟩, none⟩,
          ⟨2, some "c1", "yo", false, ⟨2025, 0, 1, 500⟩, RepeatType.daily,
            none, true, some ⟨2025, 0, 1, 500⟩, none⟩]), InvN1 n) :=
  ⟨by decide,
    processNotifications_preserves_N1 (Except.ok ())
      (fun _ => Except.ok (some ⟨true, false, Except.ok ()⟩))
      ⟨2025, 0, 1, 541⟩ [1, 2, 3, 4, 5] _ _ (by decide)⟩

/-- C3 (amended): the post-delivery recurrence update respects the end
date — every notification update emitted by
`sendNotificationWithWorkingDays` for a row with an end date either clears
`nextScheduled` (deactivation) or installs a next fire time that is at most
`endDate`.  (The working-days skip path of `processNotifications` performs
no such check; see the counterexample.) -/
theorem sendNotification_updates_respect_endDate (lo : Except String Unit)
    (env : DeliveryEnv) (now : JDate) (wd : List Nat) (n : Notification)
    (e : JDate) (he : n.endDate = some e) (nid : Nat) (p : Patch)
    (hmem : Op.update nid p ∈ sendNotificationWithWorkingDays lo env now wd n) :
    p.nextScheduled = some none ∨
      ∃ v, p.nextScheduled = some (some v) ∧ toAbs v ≤ toAbs e := by
  unfold sendNotificationWithWorkingDays at hmem
  cases hcd : n.channelDiscordId with
  | none =>
    simp only [hcd] at hmem
    exact absurd hmem (logNotificationResult_no_update _ _ _ _ _ _)
  | some cid =>
    simp only [hcd] at hmem
    cases henv : env cid with
    | error e' =>
      simp only [henv] at hmem
      exact absurd hmem (logNotificationResult_no_update _ _ _ _ _ _)
    | ok o =>
      cases o with
      | none =>
        simp only [henv] at hmem
        exact absurd hmem (logNotificationResult_no_update _ _ _ _ _ _)
      | some ch =>
        simp only [henv] at hmem
        cases hc : ch.canSend with
        | false =>
          simp only [hc, Bool.false_eq_true, if_false] at hmem
          exact absurd hmem (logNotificationResult_no_update _ _ _ _ _ _)
        | true =>
          simp only [hc, if_true] at hmem
          cases hs : ch.sendResult with
          | error e' =>
            simp only [hs] at hmem
            exact absurd hmem (logNotificationResult_no_update _ _ _ _ _ _)
          | ok u =>
            simp only [hs] at hmem
            cases hcn : calculateNextScheduledWithWorkingDays n wd now with
            | none =>
              simp only [hcn] at hmem
              rcases List.mem_append.1 hmem with h' | h'
              · exact absurd h' (logNotificationResult_no_update _ _ _ _ _ _)
              · rcases List.mem_singleton.1 h' with h''
                injection h'' with _ hp
                subst hp
                exact Or.inl rfl
            | some ns =>
              simp only [hcn] at hmem
              split at hmem
              · rename_i hguard
                rw [he] at hguard
                simp only [decide_eq_true_eq] at hguard
                rcases List.mem_append.1 hmem with h' | h'
                · exact absurd h' (logNotificationResult_no_update _ _ _ _ _ _)
                · rcases List.mem_singleton.1 h' with h''
                  injection h'' with _ hp
                  subst hp
                  exact Or.inr ⟨ns, rfl, hguard⟩
              · rcases List.mem_append.1 hmem with h' | h'
                · exact absurd h' (logNotificationResult_no_update _ _ _ _ _ _)
                · rcases List.mem_singleton.1 h' with h''
                  injection h'' with _ hp
                  subst hp
                  exact Or.inl rfl

/-- C3 witness: a concrete `daily` row with an end date takes the
advance-branch and the installed next fire time is within the end date. -/
theorem sendNotification_updates_respect_endDate_witness :
    ((⟨some (some ⟨2025, 0, 1, 541⟩), some (some ⟨2025, 0, 2, 541⟩),
        none⟩ : Patch).nextScheduled = some none) ∨
      ∃ v, (⟨some (some ⟨2025, 0, 1, 541⟩), some (some ⟨2025, 0, 2, 541⟩),
          none⟩ : Patch).nextScheduled
          = some (some v) ∧ toAbs v ≤ toAbs ⟨2025, 0, 10, 0⟩ :=
  sendNotification_updates_respect_endDate (Except.ok ())
    (fun _ => Except.ok (some ⟨true, false, Except.ok ()⟩))
    ⟨2025, 0, 1, 541⟩ [1, 2, 3, 4, 5]
    ⟨3, some "c1", "m", false, ⟨2025, 0, 1, 540⟩, RepeatType.daily,
      some ⟨2025, 0, 10, 0⟩, true, some ⟨2025, 0, 1, 540⟩, none⟩
    ⟨2025, 0, 10, 0⟩ (by decide) 3 _ (by decide)

/-- C3 counterexample: a due `working_days` row whose end date is the
current Saturday is rescheduled by the skip path to Monday, strictly past
its end date — invariant N2 is violated by the persisted update. -/
theorem skip_path_endDate_counterexample :
    processNotifications (Except.ok ()) (fun _ => Except.ok none)
        ⟨2025, 0, 4, 485⟩ [1, 2, 3, 4, 5]
        [⟨7, some "c1", "m", false, ⟨2025, 0, 4, 480⟩,
          RepeatType.working_days, some ⟨2025, 0, 4, 1439⟩, true,
          some ⟨2025, 0, 4, 480⟩, none⟩] =
      [Op.update 7 { nextScheduled := some (some ⟨2025, 0, 6, 480⟩) }] ∧
    ¬ toAbs ⟨2025, 0, 6, 480⟩ ≤ toAbs ⟨2025, 0, 4, 1439⟩ := by
  constructor <;> decide

/-- Every month has at least 28 days. -/
theorem daysInMonth_ge (y : Int) (m : Nat) : 28 ≤ daysInMonth y m := by
  unfold daysInMonth
  split
  · split <;> omega
  · split <;> omega

/-- No month has more than 31 days. -/
theorem daysInMonth_le (y : Int) (m : Nat) : daysInMonth y m ≤ 31 := by
  unfold daysInMonth
  split
  · split <;> omega
  · split <;> omega

/-- `carryDay` is the identity when the day fits the month. -/
theorem carryDay_fits (fuel : Nat) (y : Int) (m d : Nat)
    (h : d ≤ daysInMonth y m) (hf : 1 ≤ fuel) :
    carryDay fuel y m d = (y, m, d) := by
  obtain ⟨k, rfl⟩ : ∃ k, fuel = k + 1 := ⟨fuel - 1, by omega⟩
  unfold carryDay
  rw [if_pos h]

/-- `carryDay` rolls an overflowing day (at most 31) into the next month. -/
theorem carryDay_rolls (fuel : Nat) (y : Int) (m d : Nat)
    (hgt : daysInMonth y m < d) (hd : d ≤ 31) (hf : 2 ≤ fuel) :
    carryDay fuel y m d =
      ((nextMonth y m).1, (nextMonth y m).2, d - daysInMonth y m) := by
  obtain ⟨k, rfl⟩ : ∃ k, fuel = k + 2 := ⟨fuel - 2, by omega⟩
  show carryDay (k + 1 + 1) y m d = _
  unfold carryDay
  rw [if_neg (by omega)]
  exact carryDay_fits (k + 1) _ _ _
    (by
      have h1 := daysInMonth_ge (nextMonth y m).1 (nextMonth y m).2
      have h2 := daysInMonth_ge y m
      omega)
    (by omega)

/-- The two behaviours of `setMonth(getMonth()+1)` on a date whose day is a
real day-of-month: keep the day when it fits the next month, otherwise roll
the excess into the month after (no clamping). -/
theorem jsAddMonth_spec (b : JDate) (hd1 : 1 ≤ b.day) (hd2 : b.day ≤ 31) :
    (b.day ≤ daysInMonth (nextMonth b.year b.month).1
        (nextMonth b.year b.month).2 →
      jsAddMonth b = ⟨(nextMonth b.year b.month).1,
        (nextMonth b.year b.month).2, b.day, b.mins⟩) ∧
    (daysInMonth (nextMonth b.year b.month).1 (nextMonth b.year b.month).2
        < b.day →
      jsAddMonth b =
        ⟨(nextMonth (nextMonth b.year b.month).1
            (nextMonth b.year b.month).2).1,
          (nextMonth (nextMonth b.year b.month).1
            (nextMonth b.year b.month).2).2,
          b.day - daysInMonth (nextMonth b.year b.month).1
            (nextMonth b.year b.month).2,
          b.mins⟩) := by
  constructor
  · intro hle
    simp only [jsAddMonth]
    rw [carryDay_fits b.day _ _ _ hle hd1]
  · intro hgt
    simp only [jsAddMonth]
    rw [carryDay_rolls b.day _ _ _ hgt hd2
      (by
        have h1 := daysInMonth_ge (nextMonth b.year b.month).1
          (nextMonth b.year b.month).2
        omega)]

/-- C4 (amended): a `monthly` row advances from `base = max(nextScheduled,
now)` to the same day-of-month of the next month when that day exists
there; when the target month is shorter, the persisted date overflows into
the month after by the excess days (JS `setMonth` semantics — no clamping
to the last valid day). -/
theorem calculateNext_monthly_spec (n : Notification) (now : JDate)
    (wd : List Nat) (hrt : n.repeatType = RepeatType.monthly)
    (hd1 : 1 ≤ (baseOf n now).day) (hd2 : (baseOf n now).day ≤ 31) :
    calculateNextScheduledWithWorkingDays n wd now =
      some (jsAddMonth (baseOf n now)) ∧
    ((baseOf n now).day ≤
        daysInMonth (nextMonth (baseOf n now).year (baseOf n now).month).1
          (nextMonth (baseOf n now).year (baseOf n now).month).2 →
      jsAddMonth (baseOf n now) =
        ⟨(nextMonth (baseOf n now).year (baseOf n now).month).1,
          (nextMonth (baseOf n now).year (baseOf n now).month).2,
          (baseOf n now).day, (baseOf n now).mins⟩) ∧
    (daysInMonth (nextMonth (baseOf n now).year (baseOf n now).month).1
        (nextMonth (baseOf n now).year (baseOf n now).month).2 <
        (baseOf n now).day →
      jsAddMonth (baseOf n now) =
        ⟨(nextMonth (nextMonth (baseOf n now).year (baseOf n now).month).1
            (nextMonth (baseOf n now).year (baseOf n now).month).2).1,
          (nextMonth (nextMonth (baseOf n now).year (baseOf n now).month).1
            (nextMonth (baseOf n now).year (baseOf n now).month).2).2,
          (baseOf n now).day -
            daysInMonth (nextMonth (baseOf n now).year (baseOf n now).month).1
              (nextMonth (baseOf n now).year (baseOf n now).month).2,
          (baseOf n now).mins⟩) := by
  refine ⟨?_, (jsAddMonth_spec (baseOf n now) hd1 hd2).1,
    (jsAddMonth_spec (baseOf n now) hd1 hd2).2⟩
  unfold calculateNextScheduledWithWorkingDays
  rw [hrt]

/-- C4 witness: a `monthly` row based on 2025-04-30 advances to
2025-05-30 — the same day-of-month fits the target month. -/
theorem calculateNext_monthly_spec_witness :
    1 ≤ (baseOf
        ⟨4, some "c1", "m", false, ⟨2025, 3, 30, 540⟩, RepeatType.monthly,
          none, true, some ⟨2025, 3, 30, 540⟩, none⟩ ⟨2025, 3, 30, 540⟩).day ∧
    calculateNextScheduledWithWorkingDays
        ⟨4, some "c1", "m", false, ⟨2025, 3, 30, 540⟩, RepeatType.monthly,
          none, true, some ⟨2025, 3, 30, 540⟩, none⟩ [1, 2, 3, 4, 5]
        ⟨2025, 3, 30, 540⟩ =
      some ⟨2025, 4, 30, 540⟩ := by
  have h := calculateNext_monthly_spec
    ⟨4, some "c1", "m", false, ⟨2025, 3, 30, 540⟩, RepeatType.monthly, none,
      true, some ⟨2025, 3, 30, 540⟩, none⟩
    ⟨2025, 3, 30, 540⟩ [1, 2, 3, 4, 5] (by decide) (by decide) (by decide)
  refine ⟨by decide, ?_⟩
  rw [h.1]
  have h2 := h.2.1 (by decide)
  rw [h2]
  decide

/-- C4 counterexample: a `monthly` row based on 2025-01-31 is advanced to
2025-03-03 (March 3rd), not to the clamped 2025-02-28 the claim
predicts. -/
theorem calculateNext_monthly_counterexample :
    calculateNextScheduledWithWorkingDays
        ⟨5, some "c1", "m", false, ⟨2025, 0, 31, 540⟩, RepeatType.monthly,
          none, true, some ⟨2025, 0, 31, 540⟩, none⟩ [1, 2, 3, 4, 5]
        ⟨2025, 0, 31, 540⟩ =
      some ⟨2025, 2, 3, 540⟩ ∧
    (⟨2025, 2, 3, 540⟩ : JDate) ≠ ⟨2025, 1, 28, 540⟩ := by
  constructor <;> decide

/-- The scan loop of `findNextWorkingDay`: it stops at the first of the
`fuel` candidate days whose weekday is in `wd`, and past the window it
returns the cursor. -/
theorem findAux_scan (wd : List Nat) :
    ∀ (fuel : Nat) (start : JDate),
      ∃ k, k ≤ fuel ∧ findAux fuel start wd = addDays1^[k] start ∧
        (∀ j, j < k → weekday (addDays1^[j] start) ∉ wd) ∧
        (k < fuel → weekday (addDays1^[k] start) ∈ wd) := by
  intro fuel
  induction fuel with
  | zero =>
    intro start
    exact ⟨0, le_rfl, rfl, fun j hj => absurd hj (by omega),
      fun h => absurd h (by omega)⟩
  | succ m ih =>
    intro start
    by_cases h : weekday start ∈ wd
    · refine ⟨0, by omega, ?_, fun j hj => absurd hj (by omega), fun _ => ?_⟩
      · unfold findAux
        rw [if_pos h]
        exact (Function.iterate_zero_apply _ _).symm
      · simpa using h
    · obtain ⟨k, hk, heq, hnone, hfound⟩ := ih (addDays1 start)
      refine ⟨k + 1, by omega, ?_, ?_, ?_⟩
      · unfold findAux
        rw [if_neg h, heq, Function.iterate_succ_apply]
      · intro j hj
        cases j with
        | zero => simpa using h
        | succ i =>
          rw [Function.iterate_succ_apply]
          exact hnone i (by omega)
      · intro hk1
        rw [Function.iterate_succ_apply]
        exact hfound (by omega)

/-- C5 (amended): `findNextWorkingDay` returns the soonest calendar day
strictly after the input whose weekday is in `workingDays`, searching the 7
days following the input; when no day of the window matches (in particular
when `workingDays` is empty) it returns the day 8 days after the input —
not the day after it. -/
theorem findNextWorkingDay_scan (fromDate : JDate) (wd : List Nat) :
    ∃ k, k ≤ 7 ∧ findNextWorkingDay fromDate wd = addDays1^[k + 1] fromDate ∧
      (∀ j, j < k → weekday (addDays1^[j + 1] fromDate) ∉ wd) ∧
      (k < 7 → weekday (addDays1^[k + 1] fromDate) ∈ wd) := by
  obtain ⟨k, hk, heq, hnone, hfound⟩ := findAux_scan wd 7 (addDays1 fromDate)
  refine ⟨k, hk, ?_, ?_, ?_⟩
  · unfold findNextWorkingDay
    rw [heq, Function.iterate_succ_apply]
  · intro j hj
    rw [Function.iterate_succ_apply]
    exact hnone j hj
  · intro hk1
    rw [Function.iterate_succ_apply]
    exact hfound hk1

/-- C5 counterexample: with an empty working-day set the function returns
the date 8 days after the input (the cursor past the 7-day window), not the
claimed fallback of the day after the input. -/
theorem findNextWorkingDay_empty_counterexample :
    findNextWorkingDay ⟨2025, 0, 4, 480⟩ [] = ⟨2025, 0, 12, 480⟩ ∧
    addDays1 ⟨2025, 0, 4, 480⟩ = ⟨2025, 0, 5, 480⟩ ∧
    (⟨2025, 0, 12, 480⟩ : JDate) ≠ ⟨2025, 0, 5, 480⟩ := by
  refine ⟨by decide, by decide, by decide⟩

/-- The index double loop of the `exact` branch succeeds exactly when the
keyword token array occurs contiguously inside the message token array. -/
theorem exactMatchCode_eq_true_iff (mT kT : List (List Char)) :
    exactMatchCode mT kT = true ↔ kT <:+: mT := by
  unfold exactMatchCode
  rw [List.any_eq_true]
  constructor
  · rintro ⟨i, hi, hall⟩
    rw [List.mem_range] at hi
    rw [List.all_eq_true] at hall
    have hall' : ∀ j, j < kT.length → mT.getD (i + j) [] = kT.getD j [] := by
      intro j hj
      exact of_decide_eq_true (hall j (List.mem_range.2 hj))
    have hik : i + kT.length ≤ mT.length := by omega
    have hmid : (mT.drop i).take kT.length = kT := by
      apply List.ext_getElem
      · rw [List.length_take, List.length_drop]
        omega
      · intro j h1 h2
        simp only [List.getElem_take, List.getElem_drop]
        have hgd := hall' j h2
        rw [List.getD_eq_getElem mT [] (by omega),
          List.getD_eq_getElem kT [] h2] at hgd
        exact hgd
    refine ⟨mT.take i, mT.drop (i + kT.length), ?_⟩
    have hdd : (mT.drop i).drop kT.length = mT.drop (i + kT.length) := by
      rw [List.drop_drop]
    calc mT.take i ++ kT ++ mT.drop (i + kT.length)
        = mT.take i ++
            ((mT.drop i).take kT.length ++ (mT.drop i).drop kT.length) := by
          rw [hmid, hdd, List.append_assoc]
      _ = mT.take i ++ mT.drop i := by rw [List.take_append_drop]
      _ = mT := List.take_append_drop i mT
  · rintro ⟨s, t, rfl⟩
    refine ⟨s.length, ?_, ?_⟩
    · rw [List.mem_range, List.length_append, List.length_append]
      omega
    · rw [List.all_eq_true]
      intro j hj
      rw [List.mem_range] at hj
      apply decide_eq_true
      rw [List.append_assoc,
        List.getD_append_right s (kT ++ t) [] (s.length + j) (by omega),
        Nat.add_sub_cancel_left, List.getD_append kT t [] j hj]

/-- C6: an `exact`-mode keyword matches a message exactly when its token
array (lowercase, punctuation normalized to spaces, whitespace collapsed)
occurs as a contiguous run inside the message's token array; in particular
punctuation attached to a word does not prevent a match (`"alert"` matches
`"ALERT! please read."`). -/
theorem exactKeywordMatch_spec :
    (∀ keyword content : List Char,
      exactKeywordMatch keyword content = true ↔
        keywordTokens keyword <:+: messageTokens content) ∧
    exactKeywordMatch "alert".toList "ALERT! please read.".toList = true := by
  constructor
  · intro k c
    exact exactMatchCode_eq_true_iff (messageTokens c) (keywordTokens k)
  · decide

/-- Lookup on an empty cache. -/
theorem cacheGet_nil (k : String) : cacheGet [] k = none := rfl

/-- Lookup past one entry. -/
theorem cacheGet_cons (e : String × List Forwarder) (rest : Cache)
    (k : String) :
    cacheGet (e :: rest) k = if e.1 = k then some e.2 else cacheGet rest k := by
  unfold cacheGet
  by_cases h : e.1 = k
  · simp [List.find?_cons, h]
  · simp [List.find?_cons, h]

/-- `Map.set` then `Map.get`. -/
theorem cacheGet_set (c : Cache) (k : String) (v : List Forwarder)
    (k' : String) :
    cacheGet (cacheSet c k v) k' = if k' = k then some v else cacheGet c k' := by
  induction c with
  | nil =>
    show cacheGet [(k, v)] k' = _
    rw [cacheGet_cons]
    by_cases h : k' = k
    · subst h
      simp
    · rw [if_neg (fun hh : k = k' => h hh.symm), if_neg h, cacheGet_nil]
  | cons e rest ih =>
    by_cases he : e.1 = k
    · show cacheGet (if e.1 = k then (k, v) :: rest else _) k' = _
      rw [if_pos he, cacheGet_cons, cacheGet_cons]
      by_cases h : k' = k
      · subst h
        simp [he]
      · rw [if_neg (fun hh : k = k' => h hh.symm), if_neg h,
          if_neg (fun hh : e.1 = k' => h (he.symm.trans hh).symm)]
    · show cacheGet (if e.1 = k then _ else e :: cacheSet rest k v) k' = _
      rw [if_neg he, cacheGet_cons, ih, cacheGet_cons]
      by_cases h : e.1 = k'
      · have hnk : ¬ k' = k := fun hh => he (h.trans hh)
        rw [if_pos h, if_neg hnk, if_pos h]
      · rw [if_neg h, if_neg h]

/-- `cache.get(k) ?? []` after `Map.set`. -/
theorem cacheGetD_set (c : Cache) (k : String) (v : List Forwarder)
    (k' : String) :
    cacheGetD (cacheSet c k v) k' = if k' = k then v else cacheGetD c k' := by
  unfold cacheGetD
  rw [cacheGet_set]
  by_cases h : k' = k
  · simp [h]
  · simp [h]

/-- One step of the `loadForwarders` loop adds exactly the processed
forwarder, under exactly its key. -/
theorem loadStep_mem (c : Cache) (f g : Forwarder) (k : String) :
    g ∈ cacheGetD (loadStep c f) k ↔
      (g ∈ cacheGetD c k ∨ (g = f ∧ KeyedAt f k)) := by
  unfold loadStep
  cases hcd : f.sourceChannelDiscordId with
  | none =>
    simp [KeyedAt, hcd]
  | some cid =>
    have hmain : ∀ cc : Cache,
        cc = cacheSet c (keyOf f cid) (cacheGetD c (keyOf f cid) ++ [f]) →
        (g ∈ cacheGetD cc k ↔
          (g ∈ cacheGetD c k ∨ (g = f ∧ KeyedAt f k))) := by
      rintro cc rfl
      rw [cacheGetD_set]
      by_cases hk : k = keyOf f cid
      · rw [if_pos hk]
        rw [List.mem_append, List.mem_singleton]
        subst hk
        constructor
        · rintro (h | rfl)
          · exact Or.inl h
          · exact Or.inr ⟨rfl, cid, hcd, rfl⟩
        · rintro (h | ⟨rfl, _⟩)
          · exact Or.inl h
          · exact Or.inr rfl
      · rw [if_neg hk]
        constructor
        · exact Or.inl
        · rintro (h | ⟨rfl, cid', hcd', hk'⟩)
          · exact h
          · rw [hcd] at hcd'
            injection hcd' with hcc
            exact absurd (hcc ▸ hk') hk
    cases hst : f.sourceThreadId with
    | some tid => exact hmain _ rfl
    | none =>
      have hkey : keyOf f cid = "channel:" ++ cid := by
        unfold keyOf
        rw [hst]
      have hsome :
          cacheGet (cacheSet c (keyOf f cid) (cacheGetD c (keyOf f cid) ++ [f]))
            ("channel:" ++ cid) =
            some (cacheGetD c (keyOf f cid) ++ [f]) := by
        rw [cacheGet_set, if_pos hkey.symm]
      dsimp only
      rw [hsome]
      exact hmain _ rfl

/-- The `loadForwarders` loop over a suffix of the active list. -/
theorem loadAux_mem :
    ∀ (fs : List Forwarder) (c : Cache) (k : String) (g : Forwarder),
      g ∈ cacheGetD (loadAux c fs) k ↔
        (g ∈ cacheGetD c k ∨ (g ∈ fs ∧ KeyedAt g k)) := by
  intro fs
  induction fs with
  | nil =>
    intro c k g
    simp [loadAux]
  | cons f rest ih =>
    intro c k g
    show g ∈ cacheGetD (loadAux (loadStep c f) rest) k ↔ _
    rw [ih, loadStep_mem]
    constructor
    · rintro ((h | ⟨rfl, hk⟩) | ⟨hf, hk⟩)
      · exact Or.inl h
      · exact Or.inr ⟨List.mem_cons_self _ _, hk⟩
      · exact Or.inr ⟨List.mem_cons_of_mem f hf, hk⟩
    · rintro (h | ⟨hmem, hk⟩)
      · exact Or.inl (Or.inl h)
      · rcases List.mem_cons.1 hmem with rfl | hf
        · exact Or.inl (Or.inr ⟨rfl, hk⟩)
        · exact Or.inr ⟨hf, hk⟩

/-- C8: the rebuilt cache holds a forwarder under key `k` exactly when the
forwarder is in the active list, its source-channel join carries a discord
id, and `k` is `thread:{sourceThreadId}` when a thread is set, else
`channel:{discordId}` — so a forwarder without a channel join appears
nowhere, and no forwarder appears under two keys. -/
theorem loadForwarders_mem (active : List Forwarder) (k : String)
    (g : Forwarder) :
    g ∈ cacheGetD (loadForwarders active) k ↔
      (g ∈ active ∧ KeyedAt g k) := by
  unfold loadForwarders
  rw [loadAux_mem]
  constructor
  · rintro (h | h)
    · exact absurd h (by simp [cacheGetD, cacheGet_nil])
    · exact h
  · exact Or.inr

/-- A notification-log insert (successful or failed) contributes no
notification update. -/
theorem updateOps_log (lo : Except String Unit) (i : Nat) (s : String)
    (er : Option String) : updateOps (logNotificationResult lo i s er) = [] := by
  cases lo <;> rfl

/-- `updateOps` distributes over concatenation. -/
theorem updateOps_append (a b : List Op) :
    updateOps (a ++ b) = updateOps a ++ updateOps b :=
  List.filter_append _ _

/-- A forwarder-log insert contributes no platform send. -/
theorem sendOps_flog (lo : Except String Unit) (i : Nat)
    (m : Option (List Char)) (s : String) (er : Option String) :
    sendOps (logForwarderResult lo i m s er) = [] := by
  cases lo <;> rfl

/-- `sendOps` distributes over concatenation. -/
theorem sendOps_append (a b : List FOp) :
    sendOps (a ++ b) = sendOps a ++ sendOps b :=
  List.filter_append _ _

/-- The notification updates a row produces do not depend on the outcome of
the log insert. -/
theorem updateOps_sendNotification (o1 o2 : Except String Unit)
    (env : DeliveryEnv) (now : JDate) (wd : List Nat) (n : Notification) :
    updateOps (sendNotificationWithWorkingDays o1 env now wd n) =
      updateOps (sendNotificationWithWorkingDays o2 env now wd n) := by
  unfold sendNotificationWithWorkingDays
  cases n.channelDiscordId with
  | none => rw [updateOps_log, updateOps_log]
  | some cid =>
    dsimp only
    cases env cid with
    | error e => rw [updateOps_log, updateOps_log]
    | ok o =>
      cases o with
      | none => rw [updateOps_log, updateOps_log]
      | some ch =>
        dsimp only
        by_cases hcs : ch.canSend = true
        · rw [if_pos hcs, if_pos hcs]
          cases ch.sendResult with
          | error e => rw [updateOps_log, updateOps_log]
          | ok u =>
            dsimp only
            cases calculateNextScheduledWithWorkingDays n wd now with
            | none =>
              rw [updateOps_append, updateOps_append, updateOps_log,
                updateOps_log]
            | some ns =>
              dsimp only
              split
              · rw [updateOps_append, updateOps_append, updateOps_log,
                  updateOps_log]
              · rw [updateOps_append, updateOps_append, updateOps_log,
                  updateOps_log]
        · rw [if_neg hcs, if_neg hcs, updateOps_log, updateOps_log]

/-- C9 helper: the updates of a whole tick do not depend on log-insert
outcomes. -/
theorem updateOps_processNotifications (o1 o2 : Except String Unit)
    (env : DeliveryEnv) (now : JDate) (wd : List Nat) :
    ∀ due : List Notification,
      updateOps (processNotifications o1 env now wd due) =
        updateOps (processNotifications o2 env now wd due) := by
  intro due
  induction due with
  | nil => rfl
  | cons n rest ih =>
    unfold processNotifications
    rw [updateOps_append, updateOps_append, ih]
    by_cases h : n.repeatType = RepeatType.working_days ∧ ¬ weekday now ∈ wd
    · rw [if_pos h, if_pos h]
    · rw [if_neg h, if_neg h, updateOps_sendNotification o1 o2]

/-- C9 helper: the platform sends of a forwarding run do not depend on
log-insert outcomes, and a failed log on one rule does not stop the loop. -/
theorem sendOps_runForwarders (o1 o2 : Except String Unit) (env : DeliveryEnv)
    (content : List Char) :
    ∀ rules : List Forwarder,
      sendOps (runForwarders o1 env content rules) =
        sendOps (runForwarders o2 env content rules) := by
  intro rules
  induction rules with
  | nil => rfl
  | cons f rest ih =>
    unfold runForwarders
    rw [sendOps_append, sendOps_append, ih]
    cases findMatchedKeyword f content with
    | none => rfl
    | some kw =>
      dsimp only
      cases forwardMessage env f with
      | error e => rw [sendOps_flog, sendOps_flog]
      | ok target =>
        dsimp only
        show sendOps (FOp.send target (forwardedContent content) :: _) ++ _ =
          sendOps (FOp.send target (forwardedContent content) :: _) ++ _
        unfold sendOps
        rw [List.filter_cons_of_pos, List.filter_cons_of_pos]
        · rw [show (logForwarderResult o1 f.id (some kw) "success" none).filter
              FOp.isSend = [] from sendOps_flog o1 f.id (some kw) "success" none,
            show (logForwarderResult o2 f.id (some kw) "success" none).filter
              FOp.isSend = [] from sendOps_flog o2 f.id (some kw) "success" none]
        · rfl
        · rfl

/-- C9: a repository failure while inserting a notification or forwarder
log row is swallowed inside the logging helper: the scheduler still
persists the same notification updates, the tick still processes every row,
and the forwarding loop still performs the same sends for the remaining
rules — the persisted actions are identical whatever the log inserts do. -/
theorem log_failures_isolated (o1 o2 : Except String Unit)
    (env : DeliveryEnv) (now : JDate) (wd : List Nat)
    (due : List Notification) (content : List Char)
    (rules : List Forwarder) :
    updateOps (processNotifications o1 env now wd due) =
      updateOps (processNotifications o2 env now wd due) ∧
    sendOps (runForwarders o1 env content rules) =
      sendOps (runForwarders o2 env content rules) :=
  ⟨updateOps_processNotifications o1 o2 env now wd due,
    sendOps_runForwarders o1 o2 env content rules⟩

/-- The deletion pass filters out exactly the rows whose primary key
belongs to a pre-existing row with an unsynced discord id; servers and the
id counter are untouched. -/
theorem deleteMissing_spec (synced : List String) :
    ∀ (rows : List ChannelRow) (st : Store),
      (deleteMissing synced st rows).1.servers = st.servers ∧
      (deleteMissing synced st rows).1.nextId = st.nextId ∧
      (deleteMissing synced st rows).1.channels =
        st.channels.filter (keepRow synced rows) := by
  intro rows
  induction rows with
  | nil =>
    intro st
    refine ⟨rfl, rfl, ?_⟩
    have h : st.channels.filter (keepRow synced []) =
        st.channels.filter fun _ => true := List.filter_congr fun x _ => rfl
    rw [h, List.filter_true]
    rfl
  | cons r rest ih =>
    intro st
    unfold deleteMissing
    by_cases hr : r.discordId ∈ synced
    · rw [if_pos hr]
      obtain ⟨h1, h2, h3⟩ := ih st
      refine ⟨h1, h2, ?_⟩
      rw [h3]
      apply List.filter_congr
      intro c _
      unfold keepRow
      rw [List.all_cons]
      simp [hr]
    · rw [if_neg hr]
      obtain ⟨h1, h2, h3⟩ := ih (deleteChannelRow st r.id)
      refine ⟨h1, h2, ?_⟩
      rw [h3]
      show (st.channels.filter fun c => ¬ c.id = r.id).filter
          (keepRow synced rest) = _
      rw [List.filter_filter]
      apply List.filter_congr
      intro c _
      unfold keepRow
      rw [List.all_cons]
      simp [hr, Bool.and_comm]

/-- When every pre-existing row is synced the deletion pass does nothing. -/
theorem deleteMissing_noop (synced : List String) :
    ∀ (rows : List ChannelRow) (st : Store),
      (∀ r ∈ rows, r.discordId ∈ synced) →
      deleteMissing synced st rows = (st, []) := by
  intro rows
  induction rows with
  | nil =>
    intro st _
    rfl
  | cons r rest ih =>
    intro st h
    unfold deleteMissing
    rw [if_pos (h r (List.mem_cons_self r rest))]
    exact ih st fun x hx => h x (List.mem_cons_of_mem r hx)

/-- Unfolding of the synced-id list over a cons cell. -/
theorem chIds_cons (ch : GuildChannel) (rest : List GuildChannel) :
    chIds (ch :: rest) =
      if isTextLike ch.ctype then ch.id :: chIds rest else chIds rest := by
  unfold chIds
  rw [List.filter_cons]
  by_cases ht : isTextLike ch.ctype = true
  · rw [if_pos ht, if_pos ht, List.map_cons]
  · rw [if_neg ht, if_neg ht]

/-- On a store that already mirrors the channel list, the upsert loop is
the identity on the store, collects exactly the text-like ids, and emits
only refreshing updates. -/
theorem upsertChannels_fix (sid : Nat) :
    ∀ (chs : List GuildChannel) (st : Store),
      (∀ ch ∈ chs, isTextLike ch.ctype = true →
        ∃ r, getChannelByDiscordId st ch.id = some r ∧ r.name = ch.name ∧
          r.ctype = typeStr ch.ctype) →
      (st.channels.map ChannelRow.id).Nodup →
      (upsertChannels sid st chs).1 = st ∧
      (upsertChannels sid st chs).2.1 = chIds chs ∧
      ∀ op ∈ (upsertChannels sid st chs).2.2, IsRefreshOp st op := by
  intro chs
  induction chs with
  | nil =>
    intro st _ _
    exact ⟨rfl, rfl, fun op h => absurd h (List.not_mem_nil op)⟩
  | cons ch rest ih =>
    intro st hs hnd
    by_cases ht : isTextLike ch.ctype = true
    · obtain ⟨r, hfind, hname, hctype⟩ := hs ch (List.mem_cons_self ch rest) ht
      have hrmem : r ∈ st.channels := List.mem_of_find?_eq_some hfind
      have hupd : updateChannelRow st r.id ch.name (typeStr ch.ctype) = st := by
        unfold updateChannelRow
        have hmap : st.channels.map
            (fun c => if c.id = r.id then
              { c with name := ch.name, ctype := typeStr ch.ctype }
            else c) = st.channels := by
          apply map_eq_self_of
          intro c hc
          by_cases hcid : c.id = r.id
          · have hcr : c = r := List.inj_on_of_nodup_map hnd hc hrmem hcid
            rw [if_pos hcid, hcr, ← hname, ← hctype]
          · rw [if_neg hcid]
        rw [hmap]
      obtain ⟨ih1, ih2, ih3⟩ :=
        ih st (fun c hc htl => hs c (List.mem_cons_of_mem ch hc) htl) hnd
      unfold upsertChannels
      rw [if_pos ht]
      simp only [hfind]
      rw [hupd]
      refine ⟨ih1, ?_, ?_⟩
      · show ch.id :: (upsertChannels sid st rest).2.1 = chIds (ch :: rest)
        rw [ih2, chIds_cons, if_pos ht]
      · intro op hop
        rcases List.mem_cons.1 hop with rfl | hop'
        · exact ⟨r, hrmem, rfl, hname, hctype⟩
        · exact ih3 op hop'
    · obtain ⟨ih1, ih2, ih3⟩ :=
        ih st (fun c hc htl => hs c (List.mem_cons_of_mem ch hc) htl) hnd
      unfold upsertChannels
      rw [if_neg ht]
      refine ⟨ih1, ?_, ih3⟩
      rw [ih2, chIds_cons, if_neg ht]

/-- On a store that already mirrors the guild's channels, `syncChannels` is
the identity on the store and emits only refreshing updates. -/
theorem syncChannels_fix (g : Guild) (sid : Nat) (st : Store)
    (hch : ∀ ch ∈ g.channels, isTextLike ch.ctype = true →
      ∃ r, getChannelByDiscordId st ch.id = some r ∧ r.name = ch.name ∧
        r.ctype = typeStr ch.ctype)
    (hall : ∀ r ∈ st.channels, r.serverId = sid → r.discordId ∈ textIds g)
    (hnd : (st.channels.map ChannelRow.id).Nodup) :
    (syncChannels g sid st).1 = st ∧
    ∀ op ∈ (syncChannels g sid st).2, IsRefreshOp st op := by
  obtain ⟨hu1, hu2, hu3⟩ := upsertChannels_fix sid g.channels st hch hnd
  unfold syncChannels
  dsimp only
  have hdel : deleteMissing (upsertChannels sid st g.channels).2.1
      (upsertChannels sid st g.channels).1 (getChannelsByServer st sid) =
      ((upsertChannels sid st g.channels).1, []) := by
    apply deleteMissing_noop
    intro r hr
    rw [hu2]
    have hmem := List.mem_filter.1 hr
    exact hall r hmem.1 (by simpa using hmem.2)
  rw [hdel]
  refine ⟨hu1, ?_⟩
  intro op hop
  rw [List.append_nil] at hop
  exact hu3 op hop

/-- On a store that already mirrors the guild, `syncServer` is the identity
on the store and every write it performs refreshes an existing row with the
values it already holds. -/
theorem syncServer_fix (g : Guild) (st : Store) (sid : Nat)
    (hss : ServerSynced g sid st) (hcs : ChannelsSynced g sid st)
    (hndc : (st.channels.map ChannelRow.id).Nodup)
    (hnds : (st.servers.map ServerRow.id).Nodup) :
    (syncServer g st).1 = st ∧
    ∀ op ∈ (syncServer g st).2, IsRefreshOp st op := by
  obtain ⟨s, hfind, hid, hname, hicon, hmc, hconn⟩ := hss
  have hsmem : s ∈ st.servers := List.mem_of_find?_eq_some hfind
  have hupd : updateServerRow st s.id g.name g.icon g.memberCount = st := by
    unfold updateServerRow
    have hmap : st.servers.map
        (fun x => if x.id = s.id then
          { x with
            name := g.name
            icon := g.icon
            memberCount := g.memberCount
            isConnected := true }
        else x) = st.servers := by
      apply map_eq_self_of
      intro x hx
      by_cases hxid : x.id = s.id
      · have hxs : x = s := List.inj_on_of_nodup_map hnds hx hsmem hxid
        rw [if_pos hxid, hxs, ← hname, ← hicon, ← hmc, ← hconn]
      · rw [if_neg hxid]
    rw [hmap]
  subst hid
  obtain ⟨hc1, hc2⟩ := syncChannels_fix g s.id st
    (fun ch hch htl => by
      obtain ⟨r, h1, _, h3, h4⟩ := hcs.1 ch hch htl
      exact ⟨r, h1, h3, h4⟩)
    hcs.2 hndc
  unfold syncServer
  simp only [hfind]
  rw [hupd]
  constructor
  · exact hc1
  · intro op hop
    rcases List.mem_cons.1 hop with rfl | hop'
    · exact ⟨s, hsmem, rfl, hname, hicon, hmc, hconn⟩
    · exact hc2 op hop'

/-- The channel upsert's update function fixes the primary key. -/
theorem updateRow_id (cid : Nat) (nm ty : String) (c : ChannelRow) :
    ((if c.id = cid then { c with name := nm, ctype := ty } else c) :
      ChannelRow).id = c.id := by
  by_cases h : c.id = cid <;> simp [h]

/-- The channel upsert's update function fixes the discord id. -/
theorem updateRow_discordId (cid : Nat) (nm ty : String) (c : ChannelRow) :
    ((if c.id = cid then { c with name := nm, ctype := ty } else c) :
      ChannelRow).discordId = c.discordId := by
  by_cases h : c.id = cid <;> simp [h]

/-- The channel upsert's update function fixes the server id. -/
theorem updateRow_serverId (cid : Nat) (nm ty : String) (c : ChannelRow) :
    ((if c.id = cid then { c with name := nm, ctype := ty } else c) :
      ChannelRow).serverId = c.serverId := by
  by_cases h : c.id = cid <;> simp [h]

/-- Lookup by discord id commutes with a name/kind update of some row. -/
theorem find?_updateChannelRow (cid : Nat) (nm ty : String) (did : String) :
    ∀ l : List ChannelRow,
      (l.map fun c =>
        if c.id = cid then { c with name := nm, ctype := ty } else c).find?
          (fun c => c.discordId = did) =
      (l.find? fun c => c.discordId = did).map fun c =>
        if c.id = cid then { c with name := nm, ctype := ty } else c := by
  intro l
  induction l with
  | nil => rfl
  | cons a t ih =>
    rw [List.map_cons]
    by_cases hd : a.discordId = did
    · rw [List.find?_cons_of_pos _
        (by simpa [updateRow_discordId] using hd),
        List.find?_cons_of_pos _ (by simpa using hd)]
      rfl
    · rw [List.find?_cons_of_neg _
        (by simpa [updateRow_discordId] using hd),
        List.find?_cons_of_neg _ (by simpa using hd)]
      exact ih

/-- Lookup on the updated store in terms of the original store. -/
theorem getChannelByDiscordId_update (st : Store) (cid : Nat)
    (nm ty : String) (did : String) :
    getChannelByDiscordId (updateChannelRow st cid nm ty) did =
      (getChannelByDiscordId st did).map fun c =>
        if c.id = cid then { c with name := nm, ctype := ty } else c :=
  find?_updateChannelRow cid nm ty did st.channels

/-- One run of the upsert loop over an alias-free, well-formed store:
servers are untouched, the id counter only grows, the synced ids are the
text-like guild ids, primary-key well-formedness is preserved, every
text-like channel ends up stored under the server with its current name and
kind, every row either descends from an original row (same key, discord id
and server) or is a fresh row of this server, and lookups of ids outside
the synced set are unchanged. -/
theorem upsertChannels_run (sid : Nat) :
    ∀ (chs : List GuildChannel) (st : Store),
      (∀ r ∈ st.channels, r.discordId ∈ chIds chs → r.serverId = sid) →
      (st.channels.map ChannelRow.id).Nodup →
      (∀ r ∈ st.channels, r.id < st.nextId) →
      (chIds chs).Nodup →
      ((upsertChannels sid st chs).1.servers = st.servers ∧
        st.nextId ≤ (upsertChannels sid st chs).1.nextId ∧
        (upsertChannels sid st chs).2.1 = chIds chs ∧
        ((upsertChannels sid st chs).1.channels.map ChannelRow.id).Nodup ∧
        (∀ r ∈ (upsertChannels sid st chs).1.channels,
          r.id < (upsertChannels sid st chs).1.nextId) ∧
        (∀ ch ∈ chs, isTextLike ch.ctype = true →
          ∃ r, getChannelByDiscordId (upsertChannels sid st chs).1 ch.id =
              some r ∧ r.serverId = sid ∧ r.name = ch.name ∧
              r.ctype = typeStr ch.ctype) ∧
        (∀ r ∈ (upsertChannels sid st chs).1.channels,
          (∃ r₀ ∈ st.channels, r.id = r₀.id ∧ r.discordId = r₀.discordId ∧
            r.serverId = r₀.serverId) ∨
          (r.serverId = sid ∧ r.discordId ∈ chIds chs ∧ st.nextId ≤ r.id)) ∧
        (∀ did, ¬ did ∈ chIds chs →
          getChannelByDiscordId (upsertChannels sid st chs).1 did =
            getChannelByDiscordId st did)) := by
  intro chs
  induction chs with
  | nil =>
    intro st _ hnd hlt _
    exact ⟨rfl, Nat.le_refl _, rfl, hnd, hlt,
      fun ch hch => absurd hch (List.not_mem_nil ch),
      fun r hr => Or.inl ⟨r, hr, rfl, rfl, rfl⟩, fun did _ => rfl⟩
  | cons ch rest ih =>
    intro st ha hnd hlt hnodup
    by_cases ht : isTextLike ch.ctype = true
    · have hcons : chIds (ch :: rest) = ch.id :: chIds rest := by
        rw [chIds_cons, if_pos ht]
      rw [hcons] at ha hnodup
      have hnotin : ¬ ch.id ∈ chIds rest := (List.nodup_cons.1 hnodup).1
      have hnodup' : (chIds rest).Nodup := (List.nodup_cons.1 hnodup).2
      cases hf : getChannelByDiscordId st ch.id with
      | some ex =>
        have hexmem : ex ∈ st.channels := List.mem_of_find?_eq_some hf
        have hexdid : ex.discordId = ch.id := by
          have h := List.find?_some hf
          simpa using h
        have hexsid : ex.serverId = sid :=
          ha ex hexmem (hexdid ▸ List.mem_cons_self _ _)
        have hch1 : (updateChannelRow st ex.id ch.name
            (typeStr ch.ctype)).channels =
            st.channels.map fun c =>
              if c.id = ex.id then
                { c with name := ch.name, ctype := typeStr ch.ctype }
              else c := rfl
        have hmapid : ((updateChannelRow st ex.id ch.name
            (typeStr ch.ctype)).channels.map ChannelRow.id) =
            st.channels.map ChannelRow.id := by
          rw [hch1, List.map_map]
          exact List.map_congr_left fun c _ => updateRow_id _ _ _ c
        obtain ⟨ih1, ih2, ih3, ih4, ih5, ih6, ih7, ih8⟩ :=
          ih (updateChannelRow st ex.id ch.name (typeStr ch.ctype))
            (by
              intro r hr hmem
              rw [hch1] at hr
              obtain ⟨c, hc, rfl⟩ := List.mem_map.1 hr
              simp only [updateRow_serverId]
              simp only [updateRow_discordId] at hmem
              exact ha c hc (List.mem_cons_of_mem _ hmem))
            (by rw [hmapid]; exact hnd)
            (by
              intro r hr
              rw [hch1] at hr
              obtain ⟨c, hc, rfl⟩ := List.mem_map.1 hr
              simp only [updateRow_id]
              exact hlt c hc)
            hnodup'
        unfold upsertChannels
        rw [if_pos ht]
        simp only [hf]
        refine ⟨ih1, ih2, ?_, ih4, ih5, ?_, ?_, ?_⟩
        · show ch.id :: _ = chIds (ch :: rest)
          rw [ih3, hcons]
        · intro c hc htl
          rcases List.mem_cons.1 hc with hceq | hc'
          · subst hceq
            refine ⟨{ ex with name := c.name, ctype := typeStr c.ctype },
              ?_, hexsid, rfl, rfl⟩
            rw [ih8 c.id hnotin, getChannelByDiscordId_update, hf]
            simp
          · exact ih6 c hc' htl
        · intro r hr
          rcases ih7 r hr with ⟨c₁, hc₁, hid, hdid, hsid⟩ | ⟨h1, h2, h3⟩
          · rw [hch1] at hc₁
            obtain ⟨c, hc, rfl⟩ := List.mem_map.1 hc₁
            simp only [updateRow_id] at hid
            simp only [updateRow_discordId] at hdid
            simp only [updateRow_serverId] at hsid
            exact Or.inl ⟨c, hc, hid, hdid, hsid⟩
          · exact Or.inr ⟨h1,
              by rw [hcons]; exact List.mem_cons_of_mem _ h2, h3⟩
        · intro did hdid
          rw [hcons] at hdid
          have hdid1 : ¬ did ∈ chIds rest := fun h =>
            hdid (List.mem_cons_of_mem _ h)
          have hdid2 : ¬ did = ch.id := fun h =>
            hdid (h ▸ List.mem_cons_self _ _)
          rw [ih8 did hdid1, getChannelByDiscordId_update]
          cases hfd : getChannelByDiscordId st did with
          | none => rfl
          | some r =>
            have hrdid : r.discordId = did := by
              have h := List.find?_some hfd
              simpa using h
            have hrmem : r ∈ st.channels := List.mem_of_find?_eq_some hfd
            have hrne : ¬ r.id = ex.id := by
              intro h
              have hre : r = ex := List.inj_on_of_nodup_map hnd hrmem hexmem h
              exact hdid2 (by rw [← hrdid, hre, hexdid])
            simp [hrne]
      | none =>
        have hch1 : (createChannelRow st ch.id sid ch.name
            (typeStr ch.ctype)).channels =
            st.channels ++ [⟨st.nextId, ch.id, sid, ch.name,
              typeStr ch.ctype⟩] := rfl
        have hnext1 : (createChannelRow st ch.id sid ch.name
            (typeStr ch.ctype)).nextId = st.nextId + 1 := rfl
        have hlook1 : ∀ did, getChannelByDiscordId
            (createChannelRow st ch.id sid ch.name (typeStr ch.ctype)) did =
            ((getChannelByDiscordId st did).or
              (List.find? (fun c => c.discordId = did)
                [⟨st.nextId, ch.id, sid, ch.name, typeStr ch.ctype⟩])) := by
          intro did
          unfold getChannelByDiscordId
          rw [hch1, List.find?_append]
        obtain ⟨ih1, ih2, ih3, ih4, ih5, ih6, ih7, ih8⟩ :=
          ih (createChannelRow st ch.id sid ch.name (typeStr ch.ctype))
            (by
              intro r hr hmem
              rw [hch1] at hr
              rcases List.mem_append.1 hr with hr' | hr'
              · exact ha r hr' (List.mem_cons_of_mem _ hmem)
              · rw [List.mem_singleton.1 hr'])
            (by
              rw [hch1, List.map_append]
              refine List.Nodup.append hnd (List.nodup_singleton _) ?_
              intro a haa hab
              rw [List.mem_singleton.1 hab] at haa
              obtain ⟨c, hc, hcid⟩ := List.mem_map.1 haa
              exact absurd hcid (Nat.ne_of_lt (hlt c hc)))
            (by
              intro r hr
              rw [hch1] at hr
              rw [hnext1]
              rcases List.mem_append.1 hr with hr' | hr'
              · exact Nat.lt_succ_of_lt (hlt r hr')
              · rw [List.mem_singleton.1 hr']
                exact Nat.lt_succ_self _)
            hnodup'
        unfold upsertChannels
        rw [if_pos ht]
        simp only [hf]
        refine ⟨ih1,
          Nat.le_trans (by rw [hnext1]; exact Nat.le_succ _) ih2, ?_, ih4,
          ih5, ?_, ?_, ?_⟩
        · show ch.id :: _ = chIds (ch :: rest)
          rw [ih3, hcons]
        · intro c hc htl
          rcases List.mem_cons.1 hc with hceq | hc'
          · subst hceq
            refine ⟨⟨st.nextId, c.id, sid, c.name, typeStr c.ctype⟩,
              ?_, rfl, rfl, rfl⟩
            rw [ih8 c.id hnotin, hlook1, hf]
            rw [List.find?_cons_of_pos _ (by simp)]
            rfl
          · exact ih6 c hc' htl
        · intro r hr
          rcases ih7 r hr with ⟨c₁, hc₁, hid, hdid, hsid⟩ | ⟨h1, h2, h3⟩
          · rw [hch1] at hc₁
            rcases List.mem_append.1 hc₁ with hc' | hc'
            · exact Or.inl ⟨c₁, hc', hid, hdid, hsid⟩
            · rw [List.mem_singleton.1 hc'] at hid hdid hsid
              exact Or.inr ⟨hsid,
                by rw [hcons, hdid]; exact List.mem_cons_self _ _,
                Nat.le_of_eq hid.symm⟩
          · exact Or.inr ⟨h1,
              by rw [hcons]; exact List.mem_cons_of_mem _ h2,
              by rw [hnext1] at h3; omega⟩
        · intro did hdid
          rw [hcons] at hdid
          have hdid1 : ¬ did ∈ chIds rest := fun h =>
            hdid (List.mem_cons_of_mem _ h)
          have hdid2 : ¬ did = ch.id := fun h =>
            hdid (h ▸ List.mem_cons_self _ _)
          rw [ih8 did hdid1, hlook1,
            List.find?_cons_of_neg _
              (by simpa using fun h : ch.id = did => hdid2 h.symm)]
          show (getChannelByDiscordId st did).or (List.find? _ []) = _
          rw [List.find?_nil, Option.or_none]
    · have hcons : chIds (ch :: rest) = chIds rest := by
        rw [chIds_cons, if_neg ht]
      rw [hcons] at ha hnodup
      obtain ⟨ih1, ih2, ih3, ih4, ih5, ih6, ih7, ih8⟩ := ih st ha hnd hlt hnodup
      unfold upsertChannels
      rw [if_neg ht]
      refine ⟨ih1, ih2, by rw [ih3, hcons], ih4, ih5, ?_, ?_, ?_⟩
      · intro c hc htl
        rcases List.mem_cons.1 hc with hceq | hc'
        · subst hceq
          exact absurd htl ht
        · exact ih6 c hc' htl
      · intro r hr
        rcases ih7 r hr with h | ⟨h1, h2, h3⟩
        · exact Or.inl h
        · exact Or.inr ⟨h1, by rw [hcons]; exact h2, h3⟩
      · intro did hdid
        rw [hcons] at hdid
        exact ih8 did hdid

/-- `textIds` is the synced-id list of the guild's channel list. -/
theorem textIds_eq_chIds (g : Guild) : textIds g = chIds g.channels := rfl

/-- One run of `syncChannels` over an alias-free, well-formed store leaves
the servers untouched, grows the id counter, preserves primary-key
well-formedness, and leaves the channel table mirroring the guild. -/
theorem syncChannels_run (g : Guild) (sid : Nat) (st : Store)
    (ha : ∀ r ∈ st.channels, r.discordId ∈ textIds g → r.serverId = sid)
    (hnd : (st.channels.map ChannelRow.id).Nodup)
    (hlt : ∀ r ∈ st.channels, r.id < st.nextId)
    (hnodup : (textIds g).Nodup) :
    (syncChannels g sid st).1.servers = st.servers ∧
    st.nextId ≤ (syncChannels g sid st).1.nextId ∧
    ChannelsSynced g sid (syncChannels g sid st).1 ∧
    ((syncChannels g sid st).1.channels.map ChannelRow.id).Nodup ∧
    (∀ r ∈ (syncChannels g sid st).1.channels,
      r.id < (syncChannels g sid st).1.nextId) := by
  obtain ⟨hu1, hu2, hu3, hu4, hu5, hu6, hu7, hu8⟩ :=
    upsertChannels_run sid g.channels st ha hnd hlt hnodup
  obtain ⟨hd1, hd2, hd3⟩ :=
    deleteMissing_spec (upsertChannels sid st g.channels).2.1
      (getChannelsByServer st sid) (upsertChannels sid st g.channels).1
  unfold syncChannels
  dsimp only
  refine ⟨by rw [hd1, hu1], by rw [hd2]; exact hu2, ⟨?_, ?_⟩, ?_, ?_⟩
  · intro ch hch htl
    obtain ⟨r, hfind, hsid, hname, hct⟩ := hu6 ch hch htl
    have hfind' : (upsertChannels sid st g.channels).1.channels.find?
        (fun c => c.discordId = ch.id) = some r := hfind
    refine ⟨r, ?_, hsid, hname, hct⟩
    show List.find? _ _ = some r
    rw [hd3]
    apply find?_filter_first _ _ _ _ hfind'
    unfold keepRow
    rw [List.all_eq_true]
    intro r₀ hr₀
    by_cases hrin :
        r₀.discordId ∈ (upsertChannels sid st g.channels).2.1
    · simp [hrin]
    · have hr₀mem : r₀ ∈ st.channels := (List.mem_filter.1 hr₀).1
      have hr₀lt : r₀.id < st.nextId := hlt r₀ hr₀mem
      have hrmem : r ∈ (upsertChannels sid st g.channels).1.channels :=
        List.mem_of_find?_eq_some hfind'
      have hrdid : r.discordId = ch.id := by
        have h := List.find?_some hfind'
        simpa using h
      have hrsync : r.discordId ∈ (upsertChannels sid st g.channels).2.1 := by
        rw [hu3, hrdid]
        exact List.mem_map.2 ⟨ch, List.mem_filter.2 ⟨hch, htl⟩, rfl⟩
      rcases hu7 r hrmem with ⟨c₀, hc₀, hid, hdid', hsid'⟩ | ⟨_, _, hge⟩
      · have hrne : ¬ r.id = r₀.id := by
          intro h
          have hc₀r₀ : c₀ = r₀ :=
            List.inj_on_of_nodup_map hnd hc₀ hr₀mem (hid.symm.trans h)
          apply hrin
          rw [← hc₀r₀, ← hdid']
          exact hrsync
        simp [hrne]
      · have hrne : ¬ r.id = r₀.id := by omega
        simp [hrne]
  · intro r hr hsid
    rw [hd3] at hr
    obtain ⟨hmemB, hkeep⟩ := List.mem_filter.1 hr
    rcases hu7 r hmemB with ⟨c₀, hc₀, hid, hdid, hsid'⟩ | ⟨_, h2, _⟩
    · by_contra hnotin
      have hc₀sid : c₀.serverId = sid := by rw [← hsid']; exact hsid
      have hc₀ex : c₀ ∈ getChannelsByServer st sid :=
        List.mem_filter.2 ⟨hc₀, by simpa using hc₀sid⟩
      have hcond := List.all_eq_true.1 hkeep c₀ hc₀ex
      have hc₀not : ¬ c₀.discordId ∈ (upsertChannels sid st g.channels).2.1 := by
        rw [hu3, ← hdid]
        exact hnotin
      simp [hc₀not, hid] at hcond
    · exact h2
  · rw [hd3]
    exact List.Nodup.sublist
      (List.Sublist.map _ (List.filter_sublist _)) hu4
  · intro r hr
    rw [hd3] at hr
    rw [hd2]
    exact hu5 r (List.mem_filter.1 hr).1

/-- The server upsert's update function fixes the discord id. -/
theorem updateServer_discordId (sidU : Nat) (nm : String) (ic : Option String)
    (mc : Nat) (x : ServerRow) :
    ((if x.id = sidU then
      { x with
        name := nm
        icon := ic
        memberCount := mc
        isConnected := true }
    else x) : ServerRow).discordId = x.discordId := by
  by_cases h : x.id = sidU <;> simp [h]

/-- The server upsert's update function fixes the primary key. -/
theorem updateServer_id (sidU : Nat) (nm : String) (ic : Option String)
    (mc : Nat) (x : ServerRow) :
    ((if x.id = sidU then
      { x with
        name := nm
        icon := ic
        memberCount := mc
        isConnected := true }
    else x) : ServerRow).id = x.id := by
  by_cases h : x.id = sidU <;> simp [h]

/-- Server lookup by discord id commutes with the server-field update. -/
theorem find?_updateServerRow (sidU : Nat) (nm : String) (ic : Option String)
    (mc : Nat) (did : String) :
    ∀ l : List ServerRow,
      (l.map fun x =>
        if x.id = sidU then
          { x with
            name := nm
            icon := ic
            memberCount := mc
            isConnected := true }
        else x).find? (fun x => x.discordId = did) =
      (l.find? fun x => x.discordId = did).map fun x =>
        if x.id = sidU then
          { x with
            name := nm
            icon := ic
            memberCount := mc
            isConnected := true }
        else x := by
  intro l
  induction l with
  | nil => rfl
  | cons a t ih =>
    rw [List.map_cons]
    by_cases hd : a.discordId = did
    · rw [List.find?_cons_of_pos _
        (by simpa [updateServer_discordId] using hd),
        List.find?_cons_of_pos _ (by simpa using hd)]
      rfl
    · rw [List.find?_cons_of_neg _
        (by simpa [updateServer_discordId] using hd),
        List.find?_cons_of_neg _ (by simpa using hd)]
      exact ih

/-- One run of `syncServer` over an alias-free, well-formed store leaves the
store mirroring the guild: the server row carries the guild's fields, the
channel table mirrors the guild's text-like channels, and primary keys stay
well-formed. -/
theorem syncServer_run (g : Guild) (st : Store)
    (ha : ∀ r ∈ st.channels, r.discordId ∈ textIds g →
      r.serverId = resolvedServerId st g)
    (hnodup : (textIds g).Nodup) (hwf : WellFormed st) :
    ServerSynced g (resolvedServerId st g) (syncServer g st).1 ∧
    ChannelsSynced g (resolvedServerId st g) (syncServer g st).1 ∧
    ((syncServer g st).1.channels.map ChannelRow.id).Nodup ∧
    ((syncServer g st).1.servers.map ServerRow.id).Nodup := by
  obtain ⟨hndc, hltc, hnds, hlts⟩ := hwf
  cases hfs : getServerByDiscordId st g.id with
  | some s =>
    have hres : resolvedServerId st g = s.id := by
      unfold resolvedServerId
      rw [hfs]
    rw [hres] at ha ⊢
    have hchA : (updateServerRow st s.id g.name g.icon g.memberCount).channels
        = st.channels := rfl
    have hnextA : (updateServerRow st s.id g.name g.icon
        g.memberCount).nextId = st.nextId := rfl
    have hsrvA : (updateServerRow st s.id g.name g.icon
        g.memberCount).servers =
        st.servers.map fun x =>
          if x.id = s.id then
            { x with
              name := g.name
              icon := g.icon
              memberCount := g.memberCount
              isConnected := true }
          else x := rfl
    obtain ⟨hc1, hc2, hc3, hc4, hc5⟩ :=
      syncChannels_run g s.id
        (updateServerRow st s.id g.name g.icon g.memberCount)
        (by rw [hchA]; exact ha) (by rw [hchA]; exact hndc)
        (by rw [hchA, hnextA]; exact hltc) hnodup
    unfold syncServer
    simp only [hfs]
    refine ⟨?_, hc3, hc4, ?_⟩
    · refine ⟨{ s with
        name := g.name
        icon := g.icon
        memberCount := g.memberCount
        isConnected := true },
        ?_, rfl, rfl, rfl, rfl, rfl⟩
      unfold getServerByDiscordId
      rw [hc1, hsrvA, find?_updateServerRow,
        show st.servers.find? (fun x => x.discordId = g.id) = some s from hfs]
      simp
    · rw [hc1, hsrvA, List.map_map]
      have hmm : st.servers.map
          (ServerRow.id ∘ fun x =>
            if x.id = s.id then
              { x with
                name := g.name
                icon := g.icon
                memberCount := g.memberCount
                isConnected := true }
            else x) = st.servers.map ServerRow.id :=
        List.map_congr_left fun x _ => updateServer_id _ _ _ _ x
      rw [hmm]
      exact hnds
  | none =>
    have hres : resolvedServerId st g = st.nextId := by
      unfold resolvedServerId
      rw [hfs]
    rw [hres] at ha ⊢
    have hchA : (createServerRow st g.id g.name g.icon
        g.memberCount).1.channels = st.channels := rfl
    have hnextA : (createServerRow st g.id g.name g.icon
        g.memberCount).1.nextId = st.nextId + 1 := rfl
    have hsrvA : (createServerRow st g.id g.name g.icon
        g.memberCount).1.servers =
        st.servers ++ [⟨st.nextId, g.id, g.name, g.icon, g.memberCount,
          true⟩] := rfl
    have hc2eq : (createServerRow st g.id g.name g.icon g.memberCount).2 =
        st.nextId := rfl
    obtain ⟨hc1, hc2, hc3, hc4, hc5⟩ :=
      syncChannels_run g st.nextId
        (createServerRow st g.id g.name g.icon g.memberCount).1
        (by rw [hchA]; exact ha) (by rw [hchA]; exact hndc)
        (by
          rw [hchA, hnextA]
          intro r hr
          exact Nat.lt_succ_of_lt (hltc r hr))
        hnodup
    unfold syncServer
    simp only [hfs]
    rw [hc2eq]
    refine ⟨?_, hc3, hc4, ?_⟩
    · refine ⟨⟨st.nextId, g.id, g.name, g.icon, g.memberCount, true⟩,
        ?_, rfl, rfl, rfl, rfl, rfl⟩
      unfold getServerByDiscordId
      rw [hc1, hsrvA, List.find?_append,
        show st.servers.find? (fun x => x.discordId = g.id) = none from hfs,
        List.find?_cons_of_pos _ (by simp)]
      rfl
    · rw [hc1, hsrvA, List.map_append]
      refine List.Nodup.append hnds (List.nodup_singleton _) ?_
      intro a haa hab
      rw [List.mem_singleton.1 hab] at haa
      obtain ⟨x, hx, hxid⟩ := List.mem_map.1 haa
      exact absurd hxid (Nat.ne_of_lt (hlts x hx))

/-- C7: on a well-formed store, `syncServer` on an unchanged guild is
idempotent — after one run the stored channel ids of the server are exactly
the guild's text-like channel ids (stale channels deleted), and a second
run leaves the store literally unchanged, every write it performs being an
update that re-installs the values the rows already hold. -/
theorem syncServer_idempotent (g : Guild) (st : Store)
    (ha : ∀ r ∈ st.channels, r.discordId ∈ textIds g →
      r.serverId = resolvedServerId st g)
    (hnodup : (textIds g).Nodup) (hwf : WellFormed st) :
    (∀ did, did ∈ serverChannelIds (syncServer g st).1
        (resolvedServerId st g) ↔ did ∈ textIds g) ∧
    (syncServer g (syncServer g st).1).1 = (syncServer g st).1 ∧
    (∀ op ∈ (syncServer g (syncServer g st).1).2,
      IsRefreshOp (syncServer g st).1 op) := by
  obtain ⟨hss, hcs, hndc1, hnds1⟩ := syncServer_run g st ha hnodup hwf
  refine ⟨?_, ?_, ?_⟩
  · intro did
    constructor
    · intro h
      unfold serverChannelIds at h
      obtain ⟨c, hc, rfl⟩ := List.mem_map.1 h
      have hcf := List.mem_filter.1 hc
      exact hcs.2 c hcf.1 (by simpa using hcf.2)
    · intro h
      obtain ⟨ch, hchf, hchid⟩ := List.mem_map.1 h
      have hchmem : ch ∈ g.channels := (List.mem_filter.1 hchf).1
      have htl : isTextLike ch.ctype = true := by
        simpa using (List.mem_filter.1 hchf).2
      obtain ⟨r, hfind, hsid, _, _⟩ := hcs.1 ch hchmem htl
      have hrmem : r ∈ (syncServer g st).1.channels :=
        List.mem_of_find?_eq_some hfind
      have hrdid : r.discordId = ch.id := by
        have hh := List.find?_some hfind
        simpa using hh
      unfold serverChannelIds
      refine List.mem_map.2 ⟨r, List.mem_filter.2 ⟨hrmem, by simpa using hsid⟩,
        ?_⟩
      show r.discordId = did
      rw [hrdid]
      exact hchid
  · exact (syncServer_fix g (syncServer g st).1 (resolvedServerId st g)
      hss hcs hndc1 hnds1).1
  · exact (syncServer_fix g (syncServer g st).1 (resolvedServerId st g)
      hss hcs hndc1 hnds1).2

/-- C7 witness: syncing a concrete three-channel guild (two text-like, one
voice) into an empty store and syncing again leaves the store unchanged. -/
theorem syncServer_idempotent_witness :
    WellFormed ⟨[], [], 0⟩ ∧
    (syncServer
        ⟨"g1", "Guild", none, 5,
          [⟨"c1", "general", DChanType.guildText⟩,
            ⟨"c2", "news", DChanType.guildAnnouncement⟩,
            ⟨"c3", "voice", DChanType.other⟩]⟩
        (syncServer
          ⟨"g1", "Guild", none, 5,
            [⟨"c1", "general", DChanType.guildText⟩,
              ⟨"c2", "news", DChanType.guildAnnouncement⟩,
              ⟨"c3", "voice", DChanType.other⟩]⟩
          ⟨[], [], 0⟩).1).1 =
      (syncServer
        ⟨"g1", "Guild", none, 5,
          [⟨"c1", "general", DChanType.guildText⟩,
            ⟨"c2", "news", DChanType.guildAnnouncement⟩,
            ⟨"c3", "voice", DChanType.other⟩]⟩
        ⟨[], [], 0⟩).1 :=
  ⟨by constructor <;> simp [WellFormed],
    (syncServer_idempotent
      ⟨"g1", "Guild", none, 5,
        [⟨"c1", "general", DChanType.guildText⟩,
          ⟨"c2", "news", DChanType.guildAnnouncement⟩,
          ⟨"c3", "voice", DChanType.other⟩]⟩
      ⟨[], [], 0⟩ (by decide) (by decide)
      (by refine ⟨?_, ?_, ?_, ?_⟩ <;> decide)).2.1⟩

end DBot
